import Mathlib

/-!
Verification of the authentication, session, job-board and rate-limiting
logic of the Online-Job-portal-2026 repository.

JavaScript strings are modelled as `List Char`; machine integers
(`Date.now()`, counters) as `Nat`/`Int`.  The cryptographic primitives
(HMAC-SHA256, SHA-256) are external Web-Crypto calls; they are modelled as
explicit function parameters, with their relevant properties (determinism,
collision-freeness, hex output) taken as hypotheses where a claim needs them.
-/

namespace JobPortal

/-- JavaScript strings are sequences of (here: Latin-1) characters. -/
abbrev Str := List Char

-- ========================================
-- Decimal rendering of numbers (JSON.stringify on an integer)
-- ========================================

/-- Fuel-driven digit rendering (structural, so that it evaluates). -/
def natCharsF : Nat → Nat → List Char
  | 0, _ => []
  | fuel + 1, n =>
      if n < 10 then [Char.ofNat (48 + n)]
      else natCharsF fuel (n / 10) ++ [Char.ofNat (48 + n % 10)]

/-- The decimal digits of `n`, as produced by JSON.stringify on a
nonnegative integer. -/
def natChars (n : Nat) : List Char := natCharsF (n + 1) n

theorem natCharsF_fuel (n : Nat) : ∀ f1 f2 : Nat, n < f1 → n < f2 →
    natCharsF f1 n = natCharsF f2 n := by
  induction n using Nat.strong_induction_on with
  | _ n ih =>
    intro f1 f2 h1 h2
    cases f1 with
    | zero => omega
    | succ g1 =>
      cases f2 with
      | zero => omega
      | succ g2 =>
        by_cases h10 : n < 10
        · simp [natCharsF, h10]
        · rw [natCharsF, natCharsF, if_neg h10, if_neg h10,
            ih (n / 10) (Nat.div_lt_self (by omega) (by omega)) g1 g2
              (by omega) (by omega)]

/-- The defining recurrence of `natChars`. -/
theorem natChars_eq (n : Nat) :
    natChars n = if n < 10 then [Char.ofNat (48 + n)]
      else natChars (n / 10) ++ [Char.ofNat (48 + n % 10)] := by
  by_cases h10 : n < 10
  · simp [natChars, natCharsF, h10]
  · have hdiv : n / 10 < n := Nat.div_lt_self (by omega) (by omega)
    rw [natChars, natCharsF, if_neg h10, if_neg h10, natChars,
      natCharsF_fuel (n / 10) n (n / 10 + 1) (by omega) (by omega)]

/-- Numeric value of a digit character. -/
def digitVal (c : Char) : Nat := c.toNat - 48

/-- Value of a list of decimal digit characters (JSON number parsing,
restricted to nonnegative integers). -/
def digitsVal (ds : List Char) : Nat :=
  ds.foldl (fun a c => a * 10 + digitVal c) 0

/-- Decimal digit test, as used by the payload parser. -/
def isDig (c : Char) : Bool := 48 ≤ c.toNat ∧ c.toNat ≤ 57

-- ========================================
-- base64url (btoa / atob composed with the +/ → -_ replacements,
-- as in base64UrlEncode / base64UrlDecode of the source)
-- ========================================

/-- The base64url alphabet: the btoa output alphabet after the
`+ → -`, `/ → _` replacements performed by `base64UrlEncode`. -/
def b64Alphabet : List Char :=
  ("ABCDEFGHIJKLMNOPQRSTUVWXYZabcdefghijklmnopqrstuvwxyz0123456789-_").toList

/-- Character for a 6-bit value. -/
def b64Char (n : Nat) : Char := b64Alphabet.getD n 'A'

/-- Linear scan computing the index of a character in the alphabet. -/
def b64ValAux : List Char → Nat → Char → Option Nat
  | [], _, _ => none
  | a :: as, i, c => if a = c then some i else b64ValAux as (i + 1) c

/-- 6-bit value of a base64url character (`none` when the character is
outside the alphabet, which makes atob throw). -/
def b64Val (c : Char) : Option Nat := b64ValAux b64Alphabet 0 c

/-- base64url encoding of a byte sequence, without padding: this is
`base64UrlEncode` of the source (btoa followed by stripping `=` and the
character replacements), pushed down to bytes. -/
def encodeB64 : List Nat → List Char
  | [] => []
  | [b1] => [b64Char (b1 / 4), b64Char (b1 % 4 * 16)]
  | [b1, b2] => [b64Char (b1 / 4), b64Char (b1 % 4 * 16 + b2 / 16), b64Char (b2 % 16 * 4)]
  | b1 :: b2 :: b3 :: rest =>
      b64Char (b1 / 4) :: b64Char (b1 % 4 * 16 + b2 / 16) ::
      b64Char (b2 % 16 * 4 + b3 / 64) :: b64Char (b3 % 64) :: encodeB64 rest

/-- base64url decoding to bytes: `base64UrlDecode` of the source (the
character replacements, `=`-padding to a multiple of four, then atob's
forgiving base64 decode, which drops leftover bits and rejects a
remainder of one character). -/
def decodeB64 : List Char → Option (List Nat)
  | [] => some []
  | [_] => none
  | [c1, c2] => do
      let v1 ← b64Val c1
      let v2 ← b64Val c2
      pure [v1 * 4 + v2 / 16]
  | [c1, c2, c3] => do
      let v1 ← b64Val c1
      let v2 ← b64Val c2
      let v3 ← b64Val c3
      pure [v1 * 4 + v2 / 16, v2 % 16 * 16 + v3 / 4]
  | c1 :: c2 :: c3 :: c4 :: rest => do
      let v1 ← b64Val c1
      let v2 ← b64Val c2
      let v3 ← b64Val c3
      let v4 ← b64Val c4
      let tail ← decodeB64 rest
      pure ((v1 * 4 + v2 / 16) :: (v2 % 16 * 16 + v3 / 4) :: (v3 % 4 * 64 + v4) :: tail)

/-- Byte codes of a string (TextEncoder / btoa view of a Latin-1 string). -/
def strBytes (s : Str) : List Nat := s.map Char.toNat

/-- String from byte codes (atob's output view). -/
def charsOfBytes (bs : List Nat) : Str := bs.map Char.ofNat

-- ========================================
-- Lemmas: base64 round trip
-- ========================================

theorem b64ValAux_eq_some {l : List Char} {i n : Nat} {c : Char}
    (h : b64ValAux l i c = some n) :
    i ≤ n ∧ n - i < l.length ∧ l.getD (n - i) ' ' = c := by
  induction l generalizing i with
  | nil => simp [b64ValAux] at h
  | cons a as ih =>
    simp only [b64ValAux] at h
    by_cases hac : a = c
    · simp [hac] at h
      subst h
      simpa using hac
    · simp [hac] at h
      obtain ⟨h1, h2, h3⟩ := ih h
      refine ⟨by omega, by simp; omega, ?_⟩
      have hni : n - i = (n - (i + 1)) + 1 := by omega
      rw [hni]
      simpa using h3

theorem b64Val_eq_some {c : Char} {n : Nat} (h : b64Val c = some n) :
    n < 64 ∧ b64Alphabet.getD n ' ' = c := by
  obtain ⟨_, h2, h3⟩ := b64ValAux_eq_some h
  simp only [Nat.sub_zero] at h2 h3
  exact ⟨by simpa [b64Alphabet] using h2, h3⟩

theorem b64Val_b64Char : ∀ n : Nat, n < 64 → b64Val (b64Char n) = some n := by
  decide

theorem b64Val_lt {c : Char} {n : Nat} (h : b64Val c = some n) : n < 64 :=
  (b64Val_eq_some h).1

/-- A byte sequence below 256 round-trips through base64url. -/
theorem decodeB64_encodeB64 (bs : List Nat) (hb : ∀ b ∈ bs, b < 256) :
    decodeB64 (encodeB64 bs) = some bs := by
  induction bs using encodeB64.induct with
  | case1 => simp [encodeB64, decodeB64]
  | case2 b1 =>
    have h1 : b1 < 256 := hb b1 (by simp)
    simp only [encodeB64, decodeB64]
    rw [b64Val_b64Char (b1 / 4) (by omega), b64Val_b64Char (b1 % 4 * 16) (by omega)]
    simp only [Option.bind_eq_bind, Option.some_bind, Option.pure_def, Option.some.injEq,
      List.cons.injEq, and_true]
    omega
  | case3 b1 b2 =>
    have h1 : b1 < 256 := hb b1 (by simp)
    have h2 : b2 < 256 := hb b2 (by simp)
    simp only [encodeB64, decodeB64]
    rw [b64Val_b64Char (b1 / 4) (by omega),
        b64Val_b64Char (b1 % 4 * 16 + b2 / 16) (by omega),
        b64Val_b64Char (b2 % 16 * 4) (by omega)]
    simp only [Option.bind_eq_bind, Option.some_bind, Option.pure_def, Option.some.injEq,
      List.cons.injEq, and_true]
    exact ⟨by omega, by omega⟩
  | case4 b1 b2 b3 rest ih =>
    have h1 : b1 < 256 := hb b1 (by simp)
    have h2 : b2 < 256 := hb b2 (by simp)
    have h3 : b3 < 256 := hb b3 (by simp)
    have hrest : ∀ b ∈ rest, b < 256 := fun b hbmem => hb b (by simp [hbmem])
    simp only [encodeB64, decodeB64]
    rw [b64Val_b64Char (b1 / 4) (by omega),
        b64Val_b64Char (b1 % 4 * 16 + b2 / 16) (by omega),
        b64Val_b64Char (b2 % 16 * 4 + b3 / 64) (by omega),
        b64Val_b64Char (b3 % 64) (by omega),
        ih hrest]
    simp only [Option.bind_eq_bind, Option.some_bind, Option.pure_def, Option.some.injEq,
      List.cons.injEq]
    refine ⟨by omega, by omega, by omega, ?_⟩
    simp

theorem toNat_ofNat_small (n : Nat) (h : n < 55296) : (Char.ofNat n).toNat = n := by
  unfold Char.ofNat
  split
  · rfl
  · rename_i hv
    exact absurd (Or.inl (by omega)) hv

theorem ofNat_toNat_char (c : Char) : Char.ofNat c.toNat = c := by
  have hv : c.val.isValidChar := c.valid
  unfold Char.ofNat
  split
  · unfold Char.ofNatAux
    refine Char.eq_of_val_eq (UInt32.eq_of_toBitVec_eq (BitVec.eq_of_toNat_eq ?_))
    simp [Char.toNat, UInt32.toNat]
  · rename_i hvn
    exact absurd (by simpa [Char.toNat, UInt32.isValidChar] using hv) hvn

-- ========================================
-- The canonical claims payload and its JSON rendering
-- (generateToken of the hand-rolled variant builds exactly this object;
-- parsePayload is JSON.parse specialized to this canonical shape)
-- ========================================

/-- The claims object built by `generateToken`:
`{ sub, email, role, iat, exp }`. -/
structure Payload where
  sub : Str
  email : Str
  role : Str
  iat : Nat
  exp : Nat
  deriving DecidableEq

/-- Closing brace character (written numerically). -/
def rbr : Char := Char.ofNat 125

/-- `JSON.stringify` opener up to the value of `sub`. -/
def litPre : Str := ("\x7b\"sub\":\"").toList

/-- Fragment between the `sub` and `email` values (after the closing quote). -/
def mid1 : Str := (",\"email\":\"").toList

/-- Fragment between the `email` and `role` values. -/
def mid2 : Str := (",\"role\":\"").toList

/-- Fragment between the `role` value and the `iat` number. -/
def mid3 : Str := (",\"iat\":").toList

/-- Fragment between the `iat` and `exp` numbers. -/
def mid4 : Str := (",\"exp\":").toList

/-- `JSON.stringify({sub, email, role, iat, exp})` for payloads whose
string fields need no JSON escaping. -/
def jsonOfPayload (p : Payload) : Str :=
  litPre ++ p.sub ++ '"' :: (mid1 ++ p.email ++ '"' :: (mid2 ++ p.role ++ '"' ::
    (mid3 ++ natChars p.iat ++ mid4 ++ natChars p.exp ++ [rbr])))

/-- A character that `JSON.stringify` emits verbatim inside a string
literal and that btoa accepts: printable ASCII, no quote, no backslash. -/
def plainChar (c : Char) : Bool := c ≠ '"' ∧ c ≠ '\\' ∧ 32 ≤ c.toNat ∧ c.toNat ≤ 126

/-- All characters plain. -/
def plainStr (s : Str) : Bool := s.all plainChar

/-- The fixed JWT header `{"alg":"HS256","typ":"JWT"}` of `generateToken`. -/
def headerJson : Str := ("\x7b\"alg\":\"HS256\",\"typ\":\"JWT\"\x7d").toList

-- ========================================
-- The specialized JSON parser (JSON.parse on the payload segment,
-- restricted to the canonical payload shape; any other input is
-- treated as a parse failure)
-- ========================================

/-- Consume an exact literal from the front of the input. -/
def expectLit : Str → Str → Option Str
  | [], s => some s
  | _ :: _, [] => none
  | c :: ls, x :: xs => if c = x then expectLit ls xs else none

/-- Scan a JSON string body up to the closing quote. -/
def scanStr : Str → Option (Str × Str)
  | [] => none
  | c :: rest =>
      if c = '"' then some ([], rest)
      else match scanStr rest with
        | none => none
        | some (f, r) => some (c :: f, r)

/-- Scan a nonnegative JSON integer (maximal run of digits). -/
def scanNat (s : Str) : Option (Nat × Str) :=
  let ds := s.takeWhile isDig
  if ds.isEmpty then none else some (digitsVal ds, s.dropWhile isDig)

/-- `JSON.parse` specialized to the canonical payload shape produced by
`generateToken`; returns `none` on anything else (JSON.parse throwing,
or a payload of a different shape, which the verifier never produces). -/
def parsePayload (s : Str) : Option Payload := do
  let s1 ← expectLit litPre s
  let (sub, s2) ← scanStr s1
  let s3 ← expectLit mid1 s2
  let (email, s4) ← scanStr s3
  let s5 ← expectLit mid2 s4
  let (role, s6) ← scanStr s5
  let s7 ← expectLit mid3 s6
  let (iat, s8) ← scanNat s7
  let s9 ← expectLit mid4 s8
  let (exp, s10) ← scanNat s9
  let s11 ← expectLit [rbr] s10
  if s11.isEmpty then pure ⟨sub, email, role, iat, exp⟩ else none

-- ========================================
-- Token issue / verify (the hand-rolled HS256 codec of the source:
-- generateToken / verifyToken / sign / base64UrlEncode / base64UrlDecode).
-- The HMAC-SHA256-hex primitive `crypto.subtle.sign` is the function
-- parameter `mac : secret → message → hex signature`.
-- ========================================

/-- Users as seen by the token layer (`@shared/types` User). -/
structure UserS where
  id : Str
  email : Str
  role : Str

/-- 7 days, the fixed token lifetime of `generateToken`. -/
def sevenDays : Nat := 7 * 24 * 60 * 60

/-- The payload `generateToken` builds at Unix time `iat`. -/
def payloadOf (u : UserS) (iat : Nat) : Payload :=
  ⟨u.id, u.email, u.role, iat, iat + sevenDays⟩

/-- `generateToken(user, secret)` at Unix time `iat`:
`b64url(header) . b64url(payload) . hex-hmac(secret, data)`. -/
def generateToken (mac : Str → Str → Str) (u : UserS) (secret : Str) (iat : Nat) : Str :=
  let eh := encodeB64 (strBytes headerJson)
  let ep := encodeB64 (strBytes (jsonOfPayload (payloadOf u iat)))
  eh ++ '.' :: (ep ++ '.' :: mac secret (eh ++ '.' :: ep))

/-- The claims object returned by `verifyToken`. -/
structure Claims where
  sub : Str
  email : Str
  role : Str
  deriving DecidableEq

/-- `String.prototype.split('.')`. -/
def splitDots : Str → List Str
  | [] => [[]]
  | c :: rest =>
      if c = '.' then [] :: splitDots rest
      else match splitDots rest with
        | [] => [[c]]
        | s :: ss => (c :: s) :: ss

/-- `verifyToken(token, secret)` at Unix time `now`: split on dots
(destructuring keeps the first three segments and ignores the rest),
recompute and compare the signature, base64url-decode and JSON-parse the
payload, then reject a *truthy* expired `exp` (`payload.exp &&
payload.exp < now`).  Any JS exception path returns `null` (`none`). -/
def verifyToken (mac : Str → Str → Str) (token secret : Str) (now : Nat) : Option Claims :=
  match splitDots token with
  | eh :: ep :: sig :: _ =>
      if sig = mac secret (eh ++ '.' :: ep) then
        match decodeB64 ep with
        | none => none
        | some bs =>
            match parsePayload (charsOfBytes bs) with
            | none => none
            | some p =>
                if p.exp ≠ 0 ∧ p.exp < now then none
                else some ⟨p.sub, p.email, p.role⟩
      else none
  | _ => none

-- ========================================
-- Round-trip lemmas for the codec
-- ========================================

theorem natChars_digits (n : Nat) : ∀ c ∈ natChars n, isDig c = true := by
  induction n using Nat.strong_induction_on with
  | _ n ih =>
    intro c hc
    rw [natChars_eq] at hc
    by_cases h10 : n < 10
    · rw [if_pos h10] at hc
      simp at hc
      subst hc
      simp [isDig, toNat_ofNat_small (48 + n) (by omega)]
      omega
    · rw [if_neg h10] at hc
      rcases List.mem_append.1 hc with h1 | h2
      · exact ih (n / 10) (Nat.div_lt_self (by omega) (by omega)) c h1
      · simp at h2
        subst h2
        have h10b : n % 10 < 10 := Nat.mod_lt _ (by omega)
        simp [isDig, toNat_ofNat_small (48 + n % 10) (by omega)]
        omega

theorem natChars_ne_nil (n : Nat) : natChars n ≠ [] := by
  rw [natChars_eq]
  split <;> simp

theorem digitsVal_append (a : List Char) (c : Char) :
    digitsVal (a ++ [c]) = digitsVal a * 10 + digitVal c := by
  simp [digitsVal, List.foldl_append]

theorem digitsVal_natChars (n : Nat) : digitsVal (natChars n) = n := by
  induction n using Nat.strong_induction_on with
  | _ n ih =>
    rw [natChars_eq]
    by_cases h10 : n < 10
    · rw [if_pos h10]
      simp [digitsVal, digitVal, toNat_ofNat_small (48 + n) (by omega)]
    · rw [if_neg h10, digitsVal_append,
        ih (n / 10) (Nat.div_lt_self (by omega) (by omega))]
      have h10b : n % 10 < 10 := Nat.mod_lt _ (by omega)
      simp [digitVal, toNat_ofNat_small (48 + n % 10) (by omega)]
      omega

theorem expectLit_append (l s : Str) : expectLit l (l ++ s) = some s := by
  induction l with
  | nil => rfl
  | cons c ls ih => simp [expectLit, ih]

theorem scanStr_append (f r : Str) (hf : '"' ∉ f) :
    scanStr (f ++ '"' :: r) = some (f, r) := by
  induction f with
  | nil => simp [scanStr]
  | cons c fs ih =>
    have hc : c ≠ '"' := fun h => hf (by simp [h])
    have hfs : '"' ∉ fs := fun h => hf (by simp [h])
    simp [scanStr, hc, ih hfs]

theorem takeWhile_digits_append (ds : Str) (hds : ∀ c ∈ ds, isDig c = true)
    (c : Char) (hc : isDig c = false) (r : Str) :
    (ds ++ c :: r).takeWhile isDig = ds := by
  induction ds with
  | nil => simp [List.takeWhile, hc]
  | cons d dt ih =>
    have hd : isDig d = true := hds d (by simp)
    have hdt : ∀ x ∈ dt, isDig x = true := fun x hx => hds x (by simp [hx])
    simp only [List.cons_append, List.takeWhile_cons, hd, if_true]
    rw [ih hdt]

theorem dropWhile_digits_append (ds : Str) (hds : ∀ c ∈ ds, isDig c = true)
    (c : Char) (hc : isDig c = false) (r : Str) :
    (ds ++ c :: r).dropWhile isDig = c :: r := by
  induction ds with
  | nil => simp [List.dropWhile, hc]
  | cons d dt ih =>
    have hd : isDig d = true := hds d (by simp)
    have hdt : ∀ x ∈ dt, isDig x = true := fun x hx => hds x (by simp [hx])
    simp only [List.cons_append, List.dropWhile_cons, hd, if_true]
    rw [ih hdt]

theorem scanNat_exact (ds : Str) (hds : ∀ c ∈ ds, isDig c = true) (hne : ds ≠ [])
    (c : Char) (hc : isDig c = false) (r : Str) :
    scanNat (ds ++ c :: r) = some (digitsVal ds, c :: r) := by
  simp [scanNat, takeWhile_digits_append ds hds c hc r,
    dropWhile_digits_append ds hds c hc r, hne]

theorem isDig_comma : isDig ',' = false := by decide

theorem isDig_rbr : isDig rbr = false := by decide

theorem expectLit_self (l : Str) : expectLit l l = some [] := by
  simpa using expectLit_append l []

/-- `scanNat` at the `iat` position of the canonical rendering. -/
theorem scanNat_natChars_mid4 (n : Nat) (X : Str) :
    scanNat (natChars n ++ (mid4 ++ X)) = some (n, mid4 ++ X) := by
  have h4 : mid4 ++ X = ',' :: (("\"exp\":").toList ++ X) := by rfl
  rw [h4, scanNat_exact (natChars n) (natChars_digits n) (natChars_ne_nil n) ','
      isDig_comma, digitsVal_natChars]

/-- `scanNat` at the `exp` position of the canonical rendering. -/
theorem scanNat_natChars_rbr (n : Nat) :
    scanNat (natChars n ++ [rbr]) = some (n, [rbr]) := by
  rw [show ([rbr] : Str) = rbr :: [] from rfl,
      scanNat_exact (natChars n) (natChars_digits n) (natChars_ne_nil n) rbr
      isDig_rbr, digitsVal_natChars]

/-- The specialized parser inverts the canonical rendering. -/
theorem parsePayload_jsonOfPayload (p : Payload)
    (hs : '"' ∉ p.sub) (he : '"' ∉ p.email) (hr : '"' ∉ p.role) :
    parsePayload (jsonOfPayload p) = some p := by
  have hj : jsonOfPayload p = litPre ++ (p.sub ++ '"' :: (mid1 ++ (p.email ++ '"' ::
      (mid2 ++ (p.role ++ '"' :: (mid3 ++ (natChars p.iat ++ (mid4 ++
      (natChars p.exp ++ [rbr])))))))))  := by
    simp [jsonOfPayload]
  rw [parsePayload, hj, expectLit_append]
  simp only [Option.bind_eq_bind, Option.some_bind]
  rw [scanStr_append _ _ hs]
  simp only [Option.some_bind]
  rw [expectLit_append mid1]
  simp only [Option.some_bind]
  rw [scanStr_append _ _ he]
  simp only [Option.some_bind]
  rw [expectLit_append mid2]
  simp only [Option.some_bind]
  rw [scanStr_append _ _ hr]
  simp only [Option.some_bind]
  rw [expectLit_append mid3]
  simp only [Option.some_bind]
  rw [scanNat_natChars_mid4]
  simp only [Option.some_bind]
  rw [expectLit_append mid4]
  simp only [Option.some_bind]
  rw [scanNat_natChars_rbr]
  simp only [Option.some_bind]
  rw [expectLit_self [rbr]]
  simp

theorem charsOfBytes_strBytes (s : Str) : charsOfBytes (strBytes s) = s := by
  simp only [charsOfBytes, strBytes, List.map_map]
  conv_rhs => rw [← List.map_id s]
  exact List.map_congr_left fun c _ => ofNat_toNat_char c

theorem b64Char_mem (n : Nat) : b64Char n ∈ b64Alphabet := by
  by_cases h : n < b64Alphabet.length
  · rw [b64Char, List.getD_eq_getElem _ _ h]
    exact List.getElem_mem h
  · rw [b64Char, List.getD_eq_default _ _ (by omega)]
    decide

theorem mem_encodeB64 (bs : List Nat) : ∀ c ∈ encodeB64 bs, c ∈ b64Alphabet := by
  induction bs using encodeB64.induct with
  | case1 => simp [encodeB64]
  | case2 b1 =>
    intro c hc
    simp [encodeB64] at hc
    rcases hc with h | h <;> (subst h; exact b64Char_mem _)
  | case3 b1 b2 =>
    intro c hc
    simp [encodeB64] at hc
    rcases hc with h | h | h <;> (subst h; exact b64Char_mem _)
  | case4 b1 b2 b3 rest ih =>
    intro c hc
    simp only [encodeB64, List.mem_cons] at hc
    rcases hc with h | h | h | h | h
    · subst h; exact b64Char_mem _
    · subst h; exact b64Char_mem _
    · subst h; exact b64Char_mem _
    · subst h; exact b64Char_mem _
    · exact ih c h

theorem dot_not_mem_encodeB64 (bs : List Nat) : '.' ∉ encodeB64 bs := by
  intro h
  have := mem_encodeB64 bs '.' h
  revert this
  decide

theorem splitDots_ne_nil (s : Str) : splitDots s ≠ [] := by
  induction s with
  | nil => simp [splitDots]
  | cons c rest ih =>
    rw [splitDots]
    split
    · simp
    · cases hrest : splitDots rest with
      | nil => simp
      | cons a as => simp

theorem splitDots_dot_cons (a b : Str) (ha : '.' ∉ a) :
    splitDots (a ++ '.' :: b) = a :: splitDots b := by
  induction a with
  | nil => simp [splitDots]
  | cons c cs ih =>
    have hc : c ≠ '.' := fun h => ha (by simp [h])
    have hcs : '.' ∉ cs := fun h => ha (by simp [h])
    rw [List.cons_append, splitDots, if_neg hc, ih hcs]

theorem splitDots_no_dot (s : Str) (hs : '.' ∉ s) : splitDots s = [s] := by
  induction s with
  | nil => rfl
  | cons c cs ih =>
    have hc : c ≠ '.' := fun h => hs (by simp [h])
    have hcs : '.' ∉ cs := fun h => hs (by simp [h])
    rw [splitDots, if_neg hc, ih hcs]

theorem plain_bytes_lt (s : Str) (hp : plainStr s = true) :
    ∀ b ∈ strBytes s, b < 256 := by
  intro b hb
  simp only [strBytes, List.mem_map] at hb
  obtain ⟨c, hc, hcb⟩ := hb
  subst hcb
  have := (List.all_eq_true.1 hp) c hc
  simp [plainChar] at this
  omega

theorem json_bytes_lt (p : Payload) (hs : plainStr p.sub = true)
    (he : plainStr p.email = true) (hr : plainStr p.role = true) :
    ∀ b ∈ strBytes (jsonOfPayload p), b < 256 := by
  intro b hb
  simp only [strBytes, List.mem_map] at hb
  obtain ⟨c, hc, hcb⟩ := hb
  subst hcb
  have hdig : ∀ n : Nat, c ∈ natChars n → c.toNat < 256 := by
    intro n hn
    have := natChars_digits n c hn
    simp [isDig] at this
    omega
  have hplain : ∀ s : Str, plainStr s = true → c ∈ s → c.toNat < 256 := by
    intro s hsp hcs
    have := (List.all_eq_true.1 hsp) c hcs
    simp [plainChar] at this
    omega
  have hq : c = '"' → c.toNat < 256 := by intro h; subst h; decide
  have hlitPre : c ∈ litPre → c.toNat < 256 := fun h =>
    (by decide : ∀ x ∈ litPre, x.toNat < 256) c h
  have hmid1 : c ∈ mid1 → c.toNat < 256 := fun h =>
    (by decide : ∀ x ∈ mid1, x.toNat < 256) c h
  have hmid2 : c ∈ mid2 → c.toNat < 256 := fun h =>
    (by decide : ∀ x ∈ mid2, x.toNat < 256) c h
  have hmid3 : c ∈ mid3 → c.toNat < 256 := fun h =>
    (by decide : ∀ x ∈ mid3, x.toNat < 256) c h
  have hmid4 : c ∈ mid4 → c.toNat < 256 := fun h =>
    (by decide : ∀ x ∈ mid4, x.toNat < 256) c h
  rw [jsonOfPayload] at hc
  rcases List.mem_append.1 hc with h | h
  · rcases List.mem_append.1 h with h | h
    · exact hlitPre h
    · exact hplain _ hs h
  rcases List.mem_cons.1 h with h | h
  · exact hq h
  rcases List.mem_append.1 h with h | h
  · rcases List.mem_append.1 h with h | h
    · exact hmid1 h
    · exact hplain _ he h
  rcases List.mem_cons.1 h with h | h
  · exact hq h
  rcases List.mem_append.1 h with h | h
  · rcases List.mem_append.1 h with h | h
    · exact hmid2 h
    · exact hplain _ hr h
  rcases List.mem_cons.1 h with h | h
  · exact hq h
  rcases List.mem_append.1 h with h | h
  · rcases List.mem_append.1 h with h | h
    · rcases List.mem_append.1 h with h | h
      · rcases List.mem_append.1 h with h | h
        · exact hmid3 h
        · exact hdig _ h
      · exact hmid4 h
    · exact hdig _ h
  · simp at h
    subst h
    decide

theorem plain_no_quote (s : Str) (h : plainStr s = true) : '"' ∉ s := by
  intro hq
  have := (List.all_eq_true.1 h) _ hq
  simp [plainChar] at this

theorem splitDots_token (eh ep sig : Str) (h1 : '.' ∉ eh) (h2 : '.' ∉ ep)
    (h3 : '.' ∉ sig) :
    splitDots (eh ++ '.' :: (ep ++ '.' :: sig)) = [eh, ep, sig] := by
  rw [splitDots_dot_cons _ _ h1, splitDots_dot_cons _ _ h2, splitDots_no_dot _ h3]

/-- Evaluation form of `verifyToken` once the dot split is known. -/
theorem verifyToken_eq (mac : Str → Str → Str) (token secret : Str) (now : Nat)
    (eh ep sig : Str) (rest : List Str)
    (h : splitDots token = eh :: ep :: sig :: rest) :
    verifyToken mac token secret now =
      if sig = mac secret (eh ++ '.' :: ep) then
        match decodeB64 ep with
        | none => none
        | some bs =>
            match parsePayload (charsOfBytes bs) with
            | none => none
            | some p =>
                if p.exp ≠ 0 ∧ p.exp < now then none
                else some ⟨p.sub, p.email, p.role⟩
      else none := by
  rw [verifyToken, h]

/-- C2: a freshly issued token verifies under the same secret and decodes
to the same claims (subject, email, role) until its expiry elapses.  The
HMAC primitive is any deterministic function whose output contains no dot
(HMAC-SHA256 rendered in lowercase hex never does). -/
theorem c2_round_trip (mac : Str → Str → Str) (u : UserS) (secret : Str)
    (iat now : Nat)
    (hs : plainStr u.id = true) (he : plainStr u.email = true)
    (hr : plainStr u.role = true)
    (hdot : '.' ∉ mac secret (encodeB64 (strBytes headerJson) ++ '.' ::
      encodeB64 (strBytes (jsonOfPayload (payloadOf u iat)))))
    (hexp : now ≤ iat + sevenDays) :
    verifyToken mac (generateToken mac u secret iat) secret now =
      some ⟨u.id, u.email, u.role⟩ := by
  have hsq : '"' ∉ u.id := plain_no_quote _ hs
  have heq : '"' ∉ u.email := plain_no_quote _ he
  have hrq : '"' ∉ u.role := plain_no_quote _ hr
  rw [generateToken, verifyToken_eq mac _ secret now _ _ _ []
    (splitDots_token _ _ _ (dot_not_mem_encodeB64 _) (dot_not_mem_encodeB64 _) hdot)]
  rw [if_pos rfl]
  rw [decodeB64_encodeB64 _ (json_bytes_lt (payloadOf u iat) hs he hr)]
  simp only [charsOfBytes_strBytes,
    parsePayload_jsonOfPayload (payloadOf u iat)
      (show '"' ∉ (payloadOf u iat).sub from hsq)
      (show '"' ∉ (payloadOf u iat).email from heq)
      (show '"' ∉ (payloadOf u iat).role from hrq)]
  rw [if_neg (by
    intro hcon
    rcases hcon with ⟨h0, hlt⟩
    simp [payloadOf, sevenDays] at hlt
    have hexp2 : now ≤ iat + 604800 := by simpa [sevenDays] using hexp
    omega)]
  rfl

/-- Witness for C2 at a concrete user, secret and times. -/
theorem c2_round_trip_witness :
    verifyToken (fun _ _ => ['0', '0'])
      (generateToken (fun _ _ => ['0', '0'])
        ⟨('u').toString.toList, ('e').toString.toList, ('r').toString.toList⟩
        ('k').toString.toList 1) ('k').toString.toList 5 =
      some ⟨('u').toString.toList, ('e').toString.toList, ('r').toString.toList⟩ :=
  c2_round_trip (fun _ _ => ['0', '0'])
    ⟨('u').toString.toList, ('e').toString.toList, ('r').toString.toList⟩
    ('k').toString.toList 1 5 (by decide) (by decide) (by decide) (by decide)
    (by decide)

-- ========================================
-- Password hashing (hand-rolled variant: SHA-256 hex digest compare;
-- the SHA-256-hex primitive is the function parameter `sha`)
-- ========================================

/-- `hashPassword(password)`: the hex digest of the password. -/
def hashPassword (sha : Str → Str) (password : Str) : Str := sha password

/-- `verifyPassword(password, hash)`: rehash and compare. -/
def verifyPassword (sha : Str → Str) (password hash : Str) : Bool :=
  hashPassword sha password = hash

/-- C6: verifying a password against its own hash succeeds, and verifying
a different password against that hash fails whenever the two passwords do
not collide under the hash primitive (SHA-256 is assumed collision-free on
the tested pair). -/
theorem c6_password_round_trip (sha : Str → Str) (p w : Str)
    (hcol : sha w ≠ sha p) :
    verifyPassword sha p (hashPassword sha p) = true ∧
    verifyPassword sha w (hashPassword sha p) = false := by
  constructor
  · simp [verifyPassword, hashPassword]
  · simp [verifyPassword, hashPassword]
    exact hcol

/-- Witness for C6 with an injective stand-in digest at concrete inputs. -/
theorem c6_password_round_trip_witness :
    verifyPassword (fun s => s) ['a'] (hashPassword (fun s => s) ['a']) = true ∧
    verifyPassword (fun s => s) ['b'] (hashPassword (fun s => s) ['a']) = false :=
  c6_password_round_trip (fun s => s) ['a'] ['b'] (by decide)

-- ========================================
-- Concrete material for counterexamples and witnesses
-- ========================================

/-- A concrete stand-in for the HMAC primitive (constant dot-free hex). -/
def macK : Str → Str → Str := fun _ _ => ['0', '0']

/-- A small concrete payload. -/
def pK : Payload := ⟨['u'], ['e'], ['r'], 1, 2⟩

/-- Its encoded payload segment. -/
def epK : Str := encodeB64 (strBytes (jsonOfPayload pK))

/-- The encoded header segment. -/
def ehK : Str := encodeB64 (strBytes headerJson)

/-- A token with four dot-separated segments whose first three form a
valid token under `macK`. -/
def tok4 : Str := ehK ++ '.' :: (epK ++ '.' :: (['0', '0'] ++ '.' :: ['x']))

/-- `tok4` with its final character (inside the ignored fourth segment)
changed. -/
def tok4y : Str := ehK ++ '.' :: (epK ++ '.' :: (['0', '0'] ++ '.' :: ['y']))

/-- C4 counterexample: a token with four dot-separated segments (a
"wrong number of segments") is accepted by verifyToken, because the
destructuring of `split('.')` silently ignores every segment after the
third. -/
theorem c4_counterexample :
    (splitDots tok4).length = 4 ∧
    verifyToken macK tok4 [] 0 = some ⟨['u'], ['e'], ['r']⟩ := by
  decide

/-- C3 counterexample: `tok4` is accepted, and changing its final
character (a single-character change) still yields an accepted token, so
tamper rejection fails for accepted tokens with extra segments. -/
theorem c3_counterexample :
    verifyToken macK tok4 [] 0 = some ⟨['u'], ['e'], ['r']⟩ ∧
    tok4y = tok4.set (tok4.length - 1) 'y' ∧
    tok4y ≠ tok4 ∧
    verifyToken macK tok4y [] 0 = some ⟨['u'], ['e'], ['r']⟩ := by
  decide

/-- A token splitting into fewer than three dot segments is rejected
(the destructured `signature` is `undefined`). -/
theorem verifyToken_none_of_short (mac : Str → Str → Str) (t secret : Str) (now : Nat)
    (hlen : (splitDots t).length < 3) : verifyToken mac t secret now = none := by
  rw [verifyToken]
  match hsp : splitDots t with
  | [] => rfl
  | [a] => rfl
  | [a, b] => rfl
  | a :: b :: c :: rest =>
      rw [hsp] at hlen
      exact absurd hlen (by simp)

/-- C4 (amended): verifyToken is a total function that rejects (returns
`none` for) every token with fewer than three dot segments, every token
whose payload segment fails base64url decoding or canonical JSON parsing,
every signature mismatch, and every token whose `exp` is nonzero and in
the past.  (Tokens with extra segments are verified on their first three
segments, and a zero `exp` is treated as "no expiry" by the truthiness
check `payload.exp && payload.exp < now`.) -/
theorem c4_total_rejections (mac : Str → Str → Str) (t secret : Str) (now : Nat) :
    ((splitDots t).length < 3 → verifyToken mac t secret now = none) ∧
    (∀ eh ep sig rest, splitDots t = eh :: ep :: sig :: rest →
      (sig ≠ mac secret (eh ++ '.' :: ep) → verifyToken mac t secret now = none) ∧
      (decodeB64 ep = none → verifyToken mac t secret now = none) ∧
      (∀ bs, decodeB64 ep = some bs → parsePayload (charsOfBytes bs) = none →
        verifyToken mac t secret now = none) ∧
      (∀ bs p, decodeB64 ep = some bs → parsePayload (charsOfBytes bs) = some p →
        p.exp ≠ 0 → p.exp < now → verifyToken mac t secret now = none)) := by
  constructor
  · exact verifyToken_none_of_short mac t secret now
  · intro eh ep sig rest hsp
    refine ⟨?_, ?_, ?_, ?_⟩
    · intro hne
      rw [verifyToken_eq mac t secret now eh ep sig rest hsp, if_neg hne]
    · intro hdec
      rw [verifyToken_eq mac t secret now eh ep sig rest hsp]
      split
      · rw [hdec]
      · rfl
    · intro bs hdec hpar
      rw [verifyToken_eq mac t secret now eh ep sig rest hsp]
      split
      · rw [hdec]
        simp only []
        rw [hpar]
      · rfl
    · intro bs p hdec hpar h0 hlt
      rw [verifyToken_eq mac t secret now eh ep sig rest hsp]
      split
      · rw [hdec]
        simp only []
        rw [hpar]
        simp only []
        rw [if_pos ⟨h0, hlt⟩]
      · rfl

/-- Witness for C4 (amended): a one-segment token is rejected. -/
theorem c4_total_rejections_witness :
    verifyToken macK ['a'] [] 0 = none :=
  (c4_total_rejections macK ['a'] [] 0).1 (by decide)

-- ========================================
-- Infrastructure for the tamper-rejection analysis (C3):
-- inversion of the dot split, of base64 decoding, and of the parser
-- ========================================

/-- Inverse of `splitDots`: rejoin segments with dots. -/
def joinDots : List Str → Str
  | [] => []
  | [s] => s
  | s :: ss => s ++ '.' :: joinDots ss

theorem splitDots_spec (t : Str) :
    joinDots (splitDots t) = t ∧ ∀ s ∈ splitDots t, '.' ∉ s := by
  induction t with
  | nil => exact ⟨rfl, by simp [splitDots]⟩
  | cons c r ih =>
    obtain ⟨ihj, ihm⟩ := ih
    by_cases hc : c = '.'
    · subst hc
      rw [splitDots, if_pos rfl]
      constructor
      · cases hsp : splitDots r with
        | nil => exact absurd hsp (splitDots_ne_nil r)
        | cons a as =>
            rw [hsp] at ihj
            simp [joinDots, ihj]
      · intro s hs
        rcases List.mem_cons.1 hs with h | h
        · subst h; simp
        · exact ihm s h
    · rw [splitDots, if_neg hc]
      cases hsp : splitDots r with
      | nil => exact absurd hsp (splitDots_ne_nil r)
      | cons a as =>
        rw [hsp] at ihj ihm
        constructor
        · cases as with
          | nil => simpa [joinDots] using congrArg (c :: ·) ihj
          | cons b bs =>
            simp only [joinDots] at ihj ⊢
            simp [← ihj]
        · intro s hs
          rcases List.mem_cons.1 hs with h | h
          · subst h
            intro hmem
            rcases List.mem_cons.1 hmem with h | h
            · exact hc h.symm
            · exact ihm a (by simp) h
          · exact ihm s (by simp [h])

/-- A three-way split decomposes the token. -/
theorem splitDots_three (t h p s : Str) (hsp : splitDots t = [h, p, s]) :
    t = h ++ '.' :: (p ++ '.' :: s) ∧ '.' ∉ h ∧ '.' ∉ p ∧ '.' ∉ s := by
  obtain ⟨hj, hm⟩ := splitDots_spec t
  rw [hsp] at hj hm
  refine ⟨?_, hm h (by simp), hm p (by simp), hm s (by simp)⟩
  rw [← hj]
  simp [joinDots]

theorem length_splitDots_three (t : Str) (h3 : (splitDots t).length = 3) :
    ∃ h p s, splitDots t = [h, p, s] := by
  cases hsp : splitDots t with
  | nil => simp [hsp] at h3
  | cons a as =>
    cases as with
    | nil => simp [hsp] at h3
    | cons b bs =>
      cases bs with
      | nil => simp [hsp] at h3
      | cons c cs =>
        cases cs with
        | nil => exact ⟨a, b, c, rfl⟩
        | cons d ds => simp [hsp] at h3

/-- Setting a position to a genuinely different character changes the list. -/
theorem set_ne_of_get_ne (l : List Char) (k : Nat) (hk : k < l.length) (c : Char)
    (hne : l.get ⟨k, hk⟩ ≠ c) : l.set k c ≠ l := by
  intro he
  apply hne
  have hget : ∀ (m : List Char) (hm : m = l.set k c), m.get ⟨k, by simp [hm]; simpa using hk⟩ = c := by
    intro m hm
    subst hm
    simp [List.getElem_set_self]
  have := hget l he.symm
  simpa using this

theorem not_mem_set (l : List Char) (k : Nat) (c x : Char)
    (hx : x ∉ l) (hxc : x ≠ c) : x ∉ l.set k c := by
  intro hmem
  rcases List.mem_or_eq_of_mem_set hmem with h | h
  · exact hx h
  · exact hxc h

/-- Decompose a `set` inside the left part of an append. -/
theorem set_append_left (a b : List Char) (k : Nat) (hk : k < a.length) (c : Char) :
    (a ++ b).set k c = a.set k c ++ b := by
  induction a generalizing k with
  | nil => simp at hk
  | cons x xs ih =>
    cases k with
    | zero => simp
    | succ k2 =>
      simp only [List.cons_append, List.set_cons_succ]
      rw [ih k2 (by simpa using hk)]

/-- Decompose a `set` inside the right part of an append. -/
theorem set_append_right (a b : List Char) (k : Nat) (hk : a.length ≤ k) (c : Char) :
    (a ++ b).set k c = a ++ b.set (k - a.length) c := by
  induction a generalizing k with
  | nil => simp
  | cons x xs ih =>
    cases k with
    | zero => simp at hk
    | succ k2 =>
      simp only [List.cons_append, List.set_cons_succ]
      rw [ih k2 (by simpa using hk)]
      simp [Nat.succ_sub_one]

theorem get_append_left (a b : List Char) (k : Nat) (hk : k < a.length) :
    (a ++ b).get ⟨k, by simp; omega⟩ = a.get ⟨k, hk⟩ := by
  simp [List.getElem_append_left hk]

theorem decodeB64_bytes_lt : ∀ (P : Str) (bs : List Nat), decodeB64 P = some bs →
    ∀ b ∈ bs, b < 256 := by
  intro P
  induction P using decodeB64.induct with
  | case1 =>
    intro bs h b hb
    simp [decodeB64] at h
    subst h
    simp at hb
  | case2 c =>
    intro bs h
    simp [decodeB64] at h
  | case3 c1 c2 =>
    intro bs h b hb
    simp only [decodeB64, Option.bind_eq_bind, Option.pure_def, Option.bind_eq_some,
      Option.some.injEq] at h
    obtain ⟨v1, hv1, v2, hv2, hbs⟩ := h
    have hb1 := b64Val_lt hv1
    have hb2 := b64Val_lt hv2
    subst hbs
    simp at hb
    omega
  | case4 c1 c2 c3 =>
    intro bs h b hb
    simp only [decodeB64, Option.bind_eq_bind, Option.pure_def, Option.bind_eq_some,
      Option.some.injEq] at h
    obtain ⟨v1, hv1, v2, hv2, v3, hv3, hbs⟩ := h
    have hb1 := b64Val_lt hv1
    have hb2 := b64Val_lt hv2
    have hb3 := b64Val_lt hv3
    subst hbs
    simp at hb
    rcases hb with hb | hb <;> omega
  | case5 c1 c2 c3 c4 rest ih =>
    intro bs h b hb
    simp only [decodeB64, Option.bind_eq_bind, Option.pure_def, Option.bind_eq_some,
      Option.some.injEq] at h
    obtain ⟨v1, hv1, v2, hv2, v3, hv3, v4, hv4, tl, htl, hbs⟩ := h
    have hb1 := b64Val_lt hv1
    have hb2 := b64Val_lt hv2
    have hb3 := b64Val_lt hv3
    have hb4 := b64Val_lt hv4
    subst hbs
    simp at hb
    rcases hb with hb | hb | hb | hb
    · omega
    · omega
    · omega
    · exact ih tl htl b hb

theorem decodeB64_take : ∀ (P : Str) (bs : List Nat), decodeB64 P = some bs →
    ∀ j : Nat, j < P.length →
    decodeB64 (P.take j) = none ∨
    ∃ m, m < bs.length ∧ decodeB64 (P.take j) = some (bs.take m) := by
  intro P
  induction P using decodeB64.induct with
  | case1 =>
    intro bs h j hj
    simp at hj
  | case2 c =>
    intro bs h
    simp [decodeB64] at h
  | case3 c1 c2 =>
    intro bs h j hj
    simp only [decodeB64, Option.bind_eq_bind, Option.pure_def, Option.bind_eq_some,
      Option.some.injEq] at h
    obtain ⟨v1, hv1, v2, hv2, hbs⟩ := h
    simp at hj
    interval_cases j
    · right
      exact ⟨0, by subst hbs; simp, by simp [decodeB64]⟩
    · left
      simp [decodeB64]
  | case4 c1 c2 c3 =>
    intro bs h j hj
    simp only [decodeB64, Option.bind_eq_bind, Option.pure_def, Option.bind_eq_some,
      Option.some.injEq] at h
    obtain ⟨v1, hv1, v2, hv2, v3, hv3, hbs⟩ := h
    simp at hj
    interval_cases j
    · right
      exact ⟨0, by subst hbs; simp, by simp [decodeB64]⟩
    · left
      simp [decodeB64]
    · right
      refine ⟨1, by subst hbs; simp, ?_⟩
      subst hbs
      simp [decodeB64, hv1, hv2]
  | case5 c1 c2 c3 c4 rest ih =>
    intro bs h j hj
    simp only [decodeB64, Option.bind_eq_bind, Option.pure_def, Option.bind_eq_some,
      Option.some.injEq] at h
    obtain ⟨v1, hv1, v2, hv2, v3, hv3, v4, hv4, tl, htl, hbs⟩ := h
    by_cases hj4 : j < 4
    · interval_cases j
      · right
        exact ⟨0, by subst hbs; simp, by simp [decodeB64]⟩
      · left
        simp [decodeB64]
      · right
        refine ⟨1, by subst hbs; simp, ?_⟩
        subst hbs
        simp [decodeB64, hv1, hv2]
      · right
        refine ⟨2, by subst hbs; simp, ?_⟩
        subst hbs
        simp [decodeB64, hv1, hv2, hv3]
    · have htake : (c1 :: c2 :: c3 :: c4 :: rest).take j =
          c1 :: c2 :: c3 :: c4 :: rest.take (j - 4) := by
        obtain ⟨j4, rfl⟩ : ∃ j4, j = j4 + 4 := ⟨j - 4, by omega⟩
        rw [show j4 + 4 - 4 = j4 from by omega]
        rfl
      have hjr : j - 4 < rest.length := by
        simp at hj
        omega
      rcases ih tl htl (j - 4) hjr with hnone | ⟨m, hm, hsome⟩
      · left
        rw [htake]
        simp [decodeB64, hv1, hv2, hv3, hv4, hnone]
      · right
        refine ⟨m + 3, by subst hbs; simp; omega, ?_⟩
        rw [htake]
        subst hbs
        simp [decodeB64, hv1, hv2, hv3, hv4, hsome]

theorem expectLit_eq_some : ∀ (lit s r : Str), expectLit lit s = some r → s = lit ++ r := by
  intro lit
  induction lit with
  | nil =>
    intro s r h
    simp [expectLit] at h
    simp [h]
  | cons c ls ih =>
    intro s r h
    cases s with
    | nil => simp [expectLit] at h
    | cons x xs =>
      simp only [expectLit] at h
      by_cases hcx : c = x
      · subst hcx
        simp at h
        rw [ih xs r h]
        simp
      · simp [hcx] at h

theorem scanStr_eq_some : ∀ (s f r : Str), scanStr s = some (f, r) →
    s = f ++ '"' :: r ∧ '"' ∉ f := by
  intro s
  induction s with
  | nil =>
    intro f r h
    simp [scanStr] at h
  | cons c rest ih =>
    intro f r h
    simp only [scanStr] at h
    by_cases hc : c = '"'
    · subst hc
      simp at h
      obtain ⟨hf, hr⟩ := h
      subst hf
      subst hr
      simp
    · simp [hc] at h
      cases hrec : scanStr rest with
      | none => rw [hrec] at h; simp at h
      | some pr =>
        obtain ⟨f2, r2⟩ := pr
        rw [hrec] at h
        simp at h
        obtain ⟨hf, hr⟩ := h
        subst hf
        subst hr
        obtain ⟨hs, hq⟩ := ih f2 r2 hrec
        constructor
        · simp [hs]
        · simp
          exact ⟨fun hcq => hc hcq.symm, hq⟩

theorem dropWhile_head_false : ∀ (l : List Char) (e : Char) (r : Str),
    l.dropWhile isDig = e :: r → isDig e = false := by
  intro l
  induction l with
  | nil =>
    intro e r h
    simp [List.dropWhile] at h
  | cons c rest ih =>
    intro e r h
    rw [List.dropWhile_cons] at h
    by_cases hc : isDig c = true
    · simp [hc] at h
      exact ih e r h
    · simp [hc] at h
      obtain ⟨he, _⟩ := h
      subst he
      simpa using hc

theorem scanNat_eq_some (s : Str) (n : Nat) (r : Str) (h : scanNat s = some (n, r)) :
    ∃ ds, s = ds ++ r ∧ ds ≠ [] ∧ (∀ c ∈ ds, isDig c = true) ∧
      n = digitsVal ds ∧ (r = [] ∨ ∃ e r2, r = e :: r2 ∧ isDig e = false) := by
  simp only [scanNat] at h
  by_cases hemp : (s.takeWhile isDig).isEmpty
  · simp [hemp] at h
  · simp [hemp] at h
    obtain ⟨hn, hr⟩ := h
    refine ⟨s.takeWhile isDig, ?_, by simpa [List.isEmpty_iff] using hemp,
      fun c hc => List.mem_takeWhile_imp hc, hn.symm, ?_⟩
    · rw [← hr, List.takeWhile_append_dropWhile]
    · cases hd : s.dropWhile isDig with
      | nil => left; rw [← hr, hd]
      | cons e r2 =>
        right
        exact ⟨e, r2, by rw [← hr, hd], dropWhile_head_false s e r2 hd⟩

/-- The hexadecimal characters of an HMAC-SHA256 hex digest. -/
def hexChars : Str := ("0123456789abcdef").toList

/-- An accepted payload segment starts with the characters `e`, `y`
(the base64 encoding of a leading `{"`). -/
theorem accepted_payload_head (P : Str) (bs : List Nat) (hdec : decodeB64 P = some bs)
    (p : Payload) (hpar : parsePayload (charsOfBytes bs) = some p) :
    ∃ c3 r, P = 'e' :: 'y' :: c3 :: r := by
  -- first parser step: the decoded bytes spell `{"sub":"` and more
  obtain ⟨s1, hs1, -⟩ : ∃ s1, expectLit litPre (charsOfBytes bs) = some s1 ∧ True := by
    simp only [parsePayload, Option.bind_eq_bind, Option.bind_eq_some] at hpar
    obtain ⟨s1, hs1, -⟩ := hpar
    exact ⟨s1, hs1, trivial⟩
  have hbs : charsOfBytes bs = litPre ++ s1 := expectLit_eq_some _ _ _ hs1
  have hblen : bs.length = 8 + s1.length := by
    have hlen0 := congrArg List.length hbs
    simp [charsOfBytes, litPre] at hlen0
    omega
  have hlt : ∀ b ∈ bs, b < 256 := decodeB64_bytes_lt P bs hdec
  -- extract the first two bytes
  obtain ⟨b0, b1, bs2, rfl⟩ : ∃ b0 b1 bs2, bs = b0 :: b1 :: bs2 := by
    cases bs with
    | nil =>
        exfalso
        rw [show (([] : List Nat)).length = 0 from rfl] at hblen
        omega
    | cons x xs =>
      cases xs with
      | nil => exfalso; simp at hblen; omega
      | cons y ys => exact ⟨x, y, ys, rfl⟩
  have hlitPre : litPre = Char.ofNat 123 :: '"' :: ['s', 'u', 'b', '"', ':', '"'] := by
    decide
  rw [hlitPre] at hbs
  simp only [charsOfBytes, List.map_cons, List.cons_append, List.cons.injEq] at hbs
  obtain ⟨he0, he1, -⟩ := hbs
  have hb0 : b0 = 123 := by
    have h0lt : b0 < 256 := hlt b0 (by simp)
    have := congrArg Char.toNat he0
    rwa [toNat_ofNat_small b0 (by omega), toNat_ofNat_small 123 (by omega)] at this
  have hb1 : b1 = 34 := by
    have h1lt : b1 < 256 := hlt b1 (by simp)
    have := congrArg Char.toNat he1
    rw [toNat_ofNat_small b1 (by omega)] at this
    simpa using this
  -- the segment must have at least four characters
  obtain ⟨c1, c2, c3, c4, P4, rfl⟩ : ∃ c1 c2 c3 c4 P4, P = c1 :: c2 :: c3 :: c4 :: P4 := by
    match P, hdec with
    | [], hdec => simp [decodeB64] at hdec
    | [c], hdec => simp [decodeB64] at hdec
    | [c1, c2], hdec =>
        exfalso
        simp only [decodeB64, Option.bind_eq_bind, Option.pure_def,
          Option.bind_eq_some, Option.some.injEq] at hdec
        obtain ⟨v1, hv1, v2, hv2, hb⟩ := hdec
        have hl := congrArg List.length hb
        simp only [List.length_cons, List.length_nil, List.length_singleton] at hl hblen
        omega
    | [c1, c2, c3], hdec =>
        exfalso
        simp only [decodeB64, Option.bind_eq_bind, Option.pure_def,
          Option.bind_eq_some, Option.some.injEq] at hdec
        obtain ⟨v1, hv1, v2, hv2, v3, hv3, hb⟩ := hdec
        have hl := congrArg List.length hb
        simp only [List.length_cons, List.length_nil, List.length_singleton] at hl hblen
        omega
    | c1 :: c2 :: c3 :: c4 :: P4, hdec => exact ⟨c1, c2, c3, c4, P4, rfl⟩
  simp only [decodeB64, Option.bind_eq_bind, Option.pure_def, Option.bind_eq_some,
    Option.some.injEq] at hdec
  obtain ⟨v1, hv1, v2, hv2, v3, hv3, v4, hv4, tl, htl, hb⟩ := hdec
  have hx1 : v1 * 4 + v2 / 16 = 123 := by
    have := congrArg (fun l => l.headI) hb
    simpa [hb0] using this
  have hx2 : v2 % 16 * 16 + v3 / 4 = 34 := by
    have := congrArg (fun l => l.tail.headI) hb
    simpa [hb1] using this
  have hv1b := b64Val_lt hv1
  have hv2b := b64Val_lt hv2
  have hv3b := b64Val_lt hv3
  have hv1v : v1 = 30 := by omega
  have hv2v : v2 = 50 := by omega
  have hc1 : c1 = 'e' := by
    have := (b64Val_eq_some hv1).2
    rw [hv1v] at this
    simpa using this.symm
  have hc2 : c2 = 'y' := by
    have := (b64Val_eq_some hv2).2
    rw [hv2v] at this
    simpa using this.symm
  exact ⟨c3, c4 :: P4, by rw [hc1, hc2]⟩

theorem expectLit_take_self_lt : ∀ (lit : Str) (m : Nat), m < lit.length →
    expectLit lit (lit.take m) = none := by
  intro lit
  induction lit with
  | nil => intro m hm; simp at hm
  | cons c ls ih =>
    intro m hm
    cases m with
    | zero => simp [expectLit]
    | succ m2 =>
      simp only [List.take_succ_cons, expectLit, if_pos rfl]
      exact ih m2 (by simpa using hm)

theorem take_append_full (a b : Str) (m : Nat) (hm : a.length ≤ m) :
    (a ++ b).take m = a ++ b.take (m - a.length) := by
  rw [List.take_append_eq_append_take, List.take_of_length_le hm]

theorem take_append_short (a b : Str) (m : Nat) (hm : m ≤ a.length) :
    (a ++ b).take m = a.take m := by
  rw [List.take_append_eq_append_take, Nat.sub_eq_zero_of_le hm]
  simp

theorem expectLit_take_lt (lit v : Str) (m : Nat) (hm : m < lit.length) :
    expectLit lit ((lit ++ v).take m) = none := by
  rw [take_append_short lit v m (by omega)]
  exact expectLit_take_self_lt lit m hm

theorem expectLit_take_ge (lit v : Str) (m : Nat) (hm : lit.length ≤ m) :
    expectLit lit ((lit ++ v).take m) = some (v.take (m - lit.length)) := by
  rw [take_append_full lit v m hm, expectLit_append]

theorem scanStr_no_quote_none : ∀ (s : Str), '"' ∉ s → scanStr s = none := by
  intro s
  induction s with
  | nil => intro _; rfl
  | cons c rest ih =>
    intro hq
    have hc : c ≠ '"' := fun h => hq (by simp [h])
    have hrest : '"' ∉ rest := fun h => hq (by simp [h])
    simp [scanStr, hc, ih hrest]

theorem scanStr_take_le (f v : Str) (m : Nat) (hm : m ≤ f.length) (hf : '"' ∉ f) :
    scanStr ((f ++ '"' :: v).take m) = none := by
  rw [take_append_short f _ m hm]
  exact scanStr_no_quote_none _ (fun h => hf (List.mem_of_mem_take h))

theorem scanStr_take_gt (f v : Str) (m : Nat) (hm : f.length < m) (hf : '"' ∉ f) :
    scanStr ((f ++ '"' :: v).take m) = some (f, v.take (m - f.length - 1)) := by
  have h1 : ('"' :: v).take (m - f.length) = '"' :: v.take (m - f.length - 1) := by
    obtain ⟨k, hk⟩ : ∃ k, m - f.length = k + 1 := ⟨m - f.length - 1, by omega⟩
    rw [hk, List.take_succ_cons]
    simp
  rw [take_append_full f _ m (by omega), h1, scanStr_append f _ hf]

theorem takeWhile_all (l : Str) (h : ∀ c ∈ l, isDig c = true) :
    l.takeWhile isDig = l := by
  induction l with
  | nil => rfl
  | cons c rest ih =>
    simp only [List.takeWhile_cons, h c (by simp), if_true,
      ih (fun x hx => h x (by simp [hx]))]

theorem dropWhile_all (l : Str) (h : ∀ c ∈ l, isDig c = true) :
    l.dropWhile isDig = [] := by
  induction l with
  | nil => rfl
  | cons c rest ih =>
    simp only [List.dropWhile_cons, h c (by simp), if_true,
      ih (fun x hx => h x (by simp [hx]))]

theorem scanNat_nil : scanNat [] = none := by
  simp [scanNat]

theorem scanNat_take_le (ds : Str) (e : Char) (v : Str) (m : Nat)
    (hm0 : 0 < m) (hm : m ≤ ds.length) (hds : ∀ c ∈ ds, isDig c = true) :
    scanNat ((ds ++ e :: v).take m) = some (digitsVal (ds.take m), []) := by
  rw [take_append_short ds _ m hm]
  have hdig : ∀ c ∈ ds.take m, isDig c = true := fun c hc => hds c (List.mem_of_mem_take hc)
  have hne : ds.take m ≠ [] := by
    intro h
    have hlen := congrArg List.length h
    rw [List.length_take] at hlen
    simp only [List.length_nil, Nat.min_eq_zero_iff] at hlen
    rcases hlen with h0 | h0 <;> omega
  simp [scanNat, takeWhile_all _ hdig, dropWhile_all _ hdig, hne]

theorem scanNat_take_gt (ds : Str) (e : Char) (v : Str) (m : Nat)
    (hm : ds.length < m) (hds : ∀ c ∈ ds, isDig c = true) (hne : ds ≠ [])
    (he : isDig e = false) :
    scanNat ((ds ++ e :: v).take m) =
      some (digitsVal ds, e :: v.take (m - ds.length - 1)) := by
  have h1 : (e :: v).take (m - ds.length) = e :: v.take (m - ds.length - 1) := by
    obtain ⟨k, hk⟩ : ∃ k, m - ds.length = k + 1 := ⟨m - ds.length - 1, by omega⟩
    rw [hk, List.take_succ_cons]
    simp
  rw [take_append_full ds _ m (by omega), h1, scanNat_exact ds hds hne e he]

/-- Full inversion of a successful parse: the input decomposes into the
canonical literal skeleton with quote-free string fields and nonempty
digit runs. -/
theorem parsePayload_decomp (s : Str) (p : Payload) (h : parsePayload s = some p) :
    ∃ ds1 ds2,
      s = litPre ++ (p.sub ++ '"' :: (mid1 ++ (p.email ++ '"' :: (mid2 ++ (p.role ++ '"' ::
        (mid3 ++ (ds1 ++ (mid4 ++ (ds2 ++ [rbr]))))))))) ∧
      '"' ∉ p.sub ∧ '"' ∉ p.email ∧ '"' ∉ p.role ∧
      ds1 ≠ [] ∧ (∀ c ∈ ds1, isDig c = true) ∧
      ds2 ≠ [] ∧ (∀ c ∈ ds2, isDig c = true) := by
  simp only [parsePayload, Option.bind_eq_bind, Option.bind_eq_some] at h
  obtain ⟨s1, hs1, h⟩ := h
  obtain ⟨⟨sub, s2⟩, hscan1, h⟩ := h
  obtain ⟨s3, hs3, h⟩ := h
  obtain ⟨⟨email, s4⟩, hscan2, h⟩ := h
  obtain ⟨s5, hs5, h⟩ := h
  obtain ⟨⟨role, s6⟩, hscan3, h⟩ := h
  obtain ⟨s7, hs7, h⟩ := h
  obtain ⟨⟨iat, s8⟩, hnat1, h⟩ := h
  obtain ⟨s9, hs9, h⟩ := h
  obtain ⟨⟨exp, s10⟩, hnat2, h⟩ := h
  obtain ⟨s11, hs11, h⟩ := h
  have hs11e : s11 = [] ∧ p = ⟨sub, email, role, iat, exp⟩ := by
    by_cases hemp : s11.isEmpty
    · refine ⟨by simpa [List.isEmpty_iff] using hemp, ?_⟩
      rw [if_pos hemp] at h
      simp at h
      exact h.symm
    · rw [if_neg hemp] at h
      simp at h
  obtain ⟨hs11nil, hpval⟩ := hs11e
  subst hs11nil
  have e1 : s = litPre ++ s1 := expectLit_eq_some _ _ _ hs1
  obtain ⟨e2, hq1⟩ := scanStr_eq_some _ _ _ hscan1
  have e3 : s2 = mid1 ++ s3 := expectLit_eq_some _ _ _ hs3
  obtain ⟨e4, hq2⟩ := scanStr_eq_some _ _ _ hscan2
  have e5 : s4 = mid2 ++ s5 := expectLit_eq_some _ _ _ hs5
  obtain ⟨e6, hq3⟩ := scanStr_eq_some _ _ _ hscan3
  have e7 : s6 = mid3 ++ s7 := expectLit_eq_some _ _ _ hs7
  obtain ⟨ds1, e8, hne1, hdig1, -, -⟩ := scanNat_eq_some _ _ _ hnat1
  have e9 : s8 = mid4 ++ s9 := expectLit_eq_some _ _ _ hs9
  obtain ⟨ds2, e10, hne2, hdig2, -, -⟩ := scanNat_eq_some _ _ _ hnat2
  have e11 : s10 = [rbr] ++ [] := expectLit_eq_some _ _ _ hs11
  refine ⟨ds1, ds2, ?_, ?_, ?_, ?_, hne1, hdig1, hne2, hdig2⟩
  · rw [e1, e2, e3, e4, e5, e6, e7, e8, e9, e10, e11, hpval]
    simp
  · rw [hpval]; exact hq1
  · rw [hpval]; exact hq2
  · rw [hpval]; exact hq3

/-- Tail of `mid4` after the comma. -/
def mid4t : Str := ("\"exp\":").toList

theorem mid4_eq : mid4 = ',' :: mid4t := by decide

theorem expectLit_cons_same (c : Char) (ls xs : Str) :
    expectLit (c :: ls) (c :: xs) = expectLit ls xs := by
  simp [expectLit]

theorem isDig_false_comma : isDig ',' = false := by decide

/-- Front-freeness of the canonical parser: a successful parse never
succeeds again on a strict front of the same input. -/
theorem parsePayload_take_none (s : Str) (p : Payload) (hp : parsePayload s = some p)
    (m : Nat) (hm : m < s.length) : parsePayload (s.take m) = none := by
  obtain ⟨ds1, ds2, hs, hq1, hq2, hq3, hne1, hdig1, hne2, hdig2⟩ :=
    parsePayload_decomp s p hp
  subst hs
  have hl1 : litPre.length = 8 := by decide
  have hl2 : mid1.length = 10 := by decide
  have hl3 : mid2.length = 9 := by decide
  have hl4 : mid3.length = 7 := by decide
  have hl5 : mid4.length = 7 := by decide
  have hl6 : mid4t.length = 6 := by decide
  simp only [List.length_append, List.length_cons, List.length_singleton,
    List.length_nil, hl1, hl2, hl3, hl4, hl5] at hm
  simp only [parsePayload, Option.bind_eq_bind]
  by_cases h1 : m < litPre.length
  · rw [expectLit_take_lt _ _ _ h1]
    simp
  rw [hl1] at h1
  rw [expectLit_take_ge _ _ _ (by rw [hl1]; omega)]
  rw [hl1]
  simp only [Option.some_bind]
  by_cases h2 : m - 8 ≤ p.sub.length
  · rw [scanStr_take_le _ _ _ h2 hq1]
    simp
  rw [scanStr_take_gt _ _ _ (by omega) hq1]
  simp only [Option.some_bind]
  by_cases h3 : m - 8 - p.sub.length - 1 < mid1.length
  · rw [expectLit_take_lt _ _ _ h3]
    simp
  rw [hl2] at h3
  rw [expectLit_take_ge _ _ _ (by rw [hl2]; omega)]
  rw [hl2]
  simp only [Option.some_bind]
  by_cases h4 : m - 8 - p.sub.length - 1 - 10 ≤ p.email.length
  · rw [scanStr_take_le _ _ _ h4 hq2]
    simp
  rw [scanStr_take_gt _ _ _ (by omega) hq2]
  simp only [Option.some_bind]
  by_cases h5 : m - 8 - p.sub.length - 1 - 10 - p.email.length - 1 < mid2.length
  · rw [expectLit_take_lt _ _ _ h5]
    simp
  rw [hl3] at h5
  rw [expectLit_take_ge _ _ _ (by rw [hl3]; omega)]
  rw [hl3]
  simp only [Option.some_bind]
  by_cases h6 : m - 8 - p.sub.length - 1 - 10 - p.email.length - 1 - 9 ≤ p.role.length
  · rw [scanStr_take_le _ _ _ h6 hq3]
    simp
  rw [scanStr_take_gt _ _ _ (by omega) hq3]
  simp only [Option.some_bind]
  by_cases h7 : m - 8 - p.sub.length - 1 - 10 - p.email.length - 1 - 9 - p.role.length - 1
      < mid3.length
  · rw [expectLit_take_lt _ _ _ h7]
    simp
  rw [hl4] at h7
  rw [expectLit_take_ge _ _ _ (by rw [hl4]; omega)]
  rw [hl4]
  simp only [Option.some_bind]
  -- the iat digit run: input (ds1 ++ (mid4 ++ (ds2 ++ [rbr]))).take m7
  have hsplit4 : ds1 ++ (mid4 ++ (ds2 ++ [rbr])) =
      ds1 ++ ',' :: (mid4t ++ (ds2 ++ [rbr])) := by
    rw [mid4_eq]
    simp
  rw [hsplit4]
  by_cases h8 : m - 8 - p.sub.length - 1 - 10 - p.email.length - 1 - 9 - p.role.length - 1
      - 7 = 0
  · rw [h8]
    simp only [List.take_zero]
    rw [scanNat_nil]
    simp
  by_cases h9 : m - 8 - p.sub.length - 1 - 10 - p.email.length - 1 - 9 - p.role.length - 1
      - 7 ≤ ds1.length
  · rw [scanNat_take_le _ _ _ _ (by omega) h9 hdig1]
    simp only [Option.some_bind]
    rw [show expectLit mid4 [] = none from by decide]
    simp
  rw [scanNat_take_gt _ _ _ _ (by omega) hdig1 hne1 isDig_false_comma]
  simp only [Option.some_bind]
  rw [mid4_eq, expectLit_cons_same]
  by_cases h10 : m - 8 - p.sub.length - 1 - 10 - p.email.length - 1 - 9 - p.role.length - 1
      - 7 - ds1.length - 1 < mid4t.length
  · rw [expectLit_take_lt _ _ _ h10]
    simp
  rw [hl6] at h10
  rw [expectLit_take_ge _ _ _ (by rw [hl6]; omega)]
  rw [hl6]
  simp only [Option.some_bind]
  -- the exp digit run: input (ds2 ++ [rbr]).take k2 with k2 ≤ ds2.length
  have hrbr : ds2 ++ [rbr] = ds2 ++ rbr :: [] := by simp
  rw [hrbr]
  by_cases h11 : m - 8 - p.sub.length - 1 - 10 - p.email.length - 1 - 9 - p.role.length - 1
      - 7 - ds1.length - 1 - 6 = 0
  · rw [h11]
    simp only [List.take_zero]
    rw [scanNat_nil]
    simp
  have h12 : m - 8 - p.sub.length - 1 - 10 - p.email.length - 1 - 9 - p.role.length - 1
      - 7 - ds1.length - 1 - 6 ≤ ds2.length := by omega
  rw [scanNat_take_le _ _ _ _ (by omega) h12 hdig2]
  simp only [Option.some_bind]
  rw [show expectLit [rbr] [] = none from by decide]
  simp

theorem splitDots_two (a b : Str) (ha : '.' ∉ a) (hb : '.' ∉ b) :
    splitDots (a ++ '.' :: b) = [a, b] := by
  rw [splitDots_dot_cons _ _ ha, splitDots_no_dot _ hb]

theorem splitDots_four (a b c2 d : Str) (ha : '.' ∉ a) (hb : '.' ∉ b)
    (hc : '.' ∉ c2) (hd : '.' ∉ d) :
    splitDots (a ++ '.' :: (b ++ '.' :: (c2 ++ '.' :: d))) = [a, b, c2, d] := by
  rw [splitDots_dot_cons _ _ ha, splitDots_dot_cons _ _ hb,
    splitDots_dot_cons _ _ hc, splitDots_no_dot _ hd]

theorem not_mem_take (l : Str) (k : Nat) (h : '.' ∉ l) : '.' ∉ l.take k :=
  fun hm => h (List.mem_of_mem_take hm)

theorem not_mem_drop (l : Str) (k : Nat) (h : '.' ∉ l) : '.' ∉ l.drop k :=
  fun hm => h (List.mem_of_mem_drop hm)

/-- C3 (amended): for every token of exactly three dot-separated segments
accepted by verifyToken, changing any single character yields a token that
verifyToken rejects — provided the HMAC primitive is collision-free for
the given secret and its outputs consist of lowercase hexadecimal
characters (both true of HMAC-SHA256 rendered in hex, the collision
freedom cryptographically).  Tokens with more than three segments are
excluded: the counterexample shows their ignored tail can be tampered
without detection. -/
theorem c3_tamper_rejected (mac : Str → Str → Str) (secret : Str)
    (hinj : ∀ m1 m2 : Str, mac secret m1 = mac secret m2 → m1 = m2)
    (hhex : ∀ msg : Str, ∀ ch ∈ mac secret msg, ch ∈ hexChars)
    (t : Str) (now : Nat) (cl : Claims)
    (h3 : (splitDots t).length = 3)
    (hacc : verifyToken mac t secret now = some cl)
    (k : Nat) (hk : k < t.length) (c : Char) (hne : t.get ⟨k, hk⟩ ≠ c) :
    verifyToken mac (t.set k c) secret now = none := by
  obtain ⟨H, P, S, hsp⟩ := length_splitDots_three t h3
  obtain ⟨ht, hdH, hdP, hdS⟩ := splitDots_three t H P S hsp
  subst ht
  -- decompose the acceptance
  rw [verifyToken_eq mac _ secret now H P S [] hsp] at hacc
  by_cases hsig : S = mac secret (H ++ '.' :: P)
  swap
  · rw [if_neg hsig] at hacc
    simp at hacc
  rw [if_pos hsig] at hacc
  cases hdec : decodeB64 P with
  | none => rw [hdec] at hacc; simp at hacc
  | some bs =>
  rw [hdec] at hacc
  cases hpar : parsePayload (charsOfBytes bs) with
  | none => simp [hpar] at hacc
  | some p =>
  obtain ⟨cy3, Pr, hPey⟩ := accepted_payload_head P bs hdec p hpar
  have hkl : k < H.length + 1 + (P.length + 1 + S.length) := by
    have hk2 := hk
    simp [List.length_append] at hk2
    omega
  by_cases hA : k < H.length
  · -- tamper inside the header segment
    have hset : (H ++ '.' :: (P ++ '.' :: S)).set k c =
        (H.set k c) ++ '.' :: (P ++ '.' :: S) := set_append_left _ _ k hA c
    have hold : (H ++ '.' :: (P ++ '.' :: S)).get ⟨k, hk⟩ = H.get ⟨k, hA⟩ := by
      simp [List.getElem_append_left hA]
    rw [hset]
    by_cases hcd : c = '.'
    · subst hcd
      have hHdec : H.set k '.' = H.take k ++ '.' :: H.drop (k + 1) := by
        rw [List.set_eq_take_append_cons_drop, if_pos hA]
      have ht2 : (H.set k '.') ++ '.' :: (P ++ '.' :: S) =
          H.take k ++ '.' :: (H.drop (k + 1) ++ '.' :: (P ++ '.' :: S)) := by
        rw [hHdec]
        simp
      rw [ht2]
      have hsp4 : splitDots (H.take k ++ '.' :: (H.drop (k + 1) ++ '.' :: (P ++ '.' :: S)))
          = [H.take k, H.drop (k + 1), P, S] :=
        splitDots_four _ _ _ _ (not_mem_take H k hdH) (not_mem_drop H (k + 1) hdH) hdP hdS
      have hPneq : P ≠ mac secret (H.take k ++ '.' :: H.drop (k + 1)) := by
        intro heq
        have hy : 'y' ∈ mac secret (H.take k ++ '.' :: H.drop (k + 1)) := by
          rw [← heq, hPey]
          simp
        have := hhex _ 'y' hy
        revert this
        decide
      rw [verifyToken_eq mac _ secret now _ _ _ [S] hsp4, if_neg hPneq]
    · have hdH2 : '.' ∉ H.set k c := not_mem_set H k c '.' hdH (fun h => hcd h.symm)
      have hsp3 : splitDots ((H.set k c) ++ '.' :: (P ++ '.' :: S)) = [H.set k c, P, S] :=
        splitDots_token _ _ _ hdH2 hdP hdS
      have hneq : S ≠ mac secret (H.set k c ++ '.' :: P) := by
        intro heq
        have hmsg := hinj _ _ (hsig.symm.trans heq)
        have hHH : H = H.set k c := (List.append_inj hmsg (by simp)).1
        exact set_ne_of_get_ne H k hA c (by rw [← hold]; exact hne) hHH.symm
      rw [verifyToken_eq mac _ secret now _ _ _ [] hsp3, if_neg hneq]
  by_cases hB : k = H.length
  · -- tamper on the first dot
    have hold : (H ++ '.' :: (P ++ '.' :: S)).get ⟨k, hk⟩ = '.' := by
      subst hB
      simp [List.getElem_append_right (Nat.le_refl H.length)]
    have hcd : c ≠ '.' := fun h => hne (by rw [hold, h])
    have hset : (H ++ '.' :: (P ++ '.' :: S)).set k c =
        (H ++ c :: P) ++ '.' :: S := by
      subst hB
      rw [set_append_right _ _ _ (Nat.le_refl H.length), Nat.sub_self]
      simp
    rw [hset]
    apply verifyToken_none_of_short
    rw [splitDots_two _ _ ?_ hdS]
    · simp
    · intro hm
      rcases List.mem_append.1 hm with h | h
      · exact hdH h
      · rcases List.mem_cons.1 h with h | h
        · exact hcd h.symm
        · exact hdP h
  by_cases hC : k < H.length + 1 + P.length
  · -- tamper inside the payload segment
    obtain ⟨j, hj⟩ : ∃ j, k - H.length = j + 1 := ⟨k - H.length - 1, by omega⟩
    have hjP : j < P.length := by omega
    have hset : (H ++ '.' :: (P ++ '.' :: S)).set k c =
        H ++ '.' :: ((P.set j c) ++ '.' :: S) := by
      rw [set_append_right _ _ _ (by omega), hj, List.set_cons_succ,
        set_append_left _ _ j hjP]
    have hold : (H ++ '.' :: (P ++ '.' :: S)).get ⟨k, hk⟩ = P.get ⟨j, hjP⟩ := by
      simp only [List.get_eq_getElem]
      rw [List.getElem_append_right (by omega : H.length ≤ k)]
      have hj2 : k - H.length = j + 1 := hj
      simp only [hj2, List.getElem_cons_succ]
      rw [List.getElem_append_left hjP]
    rw [hset]
    by_cases hcd : c = '.'
    · subst hcd
      have hPdec : P.set j '.' = P.take j ++ '.' :: P.drop (j + 1) := by
        rw [List.set_eq_take_append_cons_drop, if_pos hjP]
      have ht2 : H ++ '.' :: ((P.set j '.') ++ '.' :: S) =
          H ++ '.' :: (P.take j ++ '.' :: (P.drop (j + 1) ++ '.' :: S)) := by
        rw [hPdec]
        simp
      rw [ht2]
      have hsp4 : splitDots (H ++ '.' :: (P.take j ++ '.' :: (P.drop (j + 1) ++ '.' :: S)))
          = [H, P.take j, P.drop (j + 1), S] :=
        splitDots_four _ _ _ _ hdH (not_mem_take P j hdP) (not_mem_drop P (j + 1) hdP) hdS
      rw [verifyToken_eq mac _ secret now _ _ _ [S] hsp4]
      by_cases heq : P.drop (j + 1) = mac secret (H ++ '.' :: P.take j)
      · rw [if_pos heq]
        rcases decodeB64_take P bs hdec j hjP with hnone | ⟨mj, hmj, hsome⟩
        · rw [hnone]
        · have hcmap : charsOfBytes (bs.take mj) = (charsOfBytes bs).take mj := by
            simp [charsOfBytes, List.map_take]
          have hpfn : parsePayload (charsOfBytes (bs.take mj)) = none := by
            rw [hcmap]
            exact parsePayload_take_none (charsOfBytes bs) p hpar mj
              (by simpa [charsOfBytes] using hmj)
          rw [hsome]
          simp [hpfn]
      · rw [if_neg heq]
    · have hdP2 : '.' ∉ P.set j c := not_mem_set P j c '.' hdP (fun h => hcd h.symm)
      have hsp3 : splitDots (H ++ '.' :: ((P.set j c) ++ '.' :: S)) = [H, P.set j c, S] :=
        splitDots_token _ _ _ hdH hdP2 hdS
      have hneq : S ≠ mac secret (H ++ '.' :: (P.set j c)) := by
        intro heq
        have hmsg := hinj _ _ (hsig.symm.trans heq)
        have hPP : P = P.set j c := by
          have := List.append_cancel_left hmsg
          simpa using this
        exact set_ne_of_get_ne P j hjP c (by rw [← hold]; exact hne) hPP.symm
      rw [verifyToken_eq mac _ secret now _ _ _ [] hsp3, if_neg hneq]
  by_cases hD : k = H.length + 1 + P.length
  · -- tamper on the second dot
    have hold : (H ++ '.' :: (P ++ '.' :: S)).get ⟨k, hk⟩ = '.' := by
      simp only [List.get_eq_getElem]
      rw [List.getElem_append_right (by omega : H.length ≤ k)]
      obtain ⟨j, hj⟩ : ∃ j, k - H.length = j + 1 := ⟨k - H.length - 1, by omega⟩
      simp only [hj, List.getElem_cons_succ]
      rw [List.getElem_append_right (by omega : P.length ≤ j)]
      have : j - P.length = 0 := by omega
      simp [this]
    have hcd : c ≠ '.' := fun h => hne (by rw [hold, h])
    have hset : (H ++ '.' :: (P ++ '.' :: S)).set k c =
        H ++ '.' :: ((P ++ c :: S)) := by
      rw [set_append_right _ _ _ (by omega : H.length ≤ k)]
      obtain ⟨j, hj⟩ : ∃ j, k - H.length = j + 1 := ⟨k - H.length - 1, by omega⟩
      rw [hj, List.set_cons_succ, set_append_right _ _ _ (by omega : P.length ≤ j)]
      have : j - P.length = 0 := by omega
      simp [this]
    rw [hset]
    apply verifyToken_none_of_short
    have hdot2 : '.' ∉ P ++ c :: S := by
      intro hm
      rcases List.mem_append.1 hm with h | h
      · exact hdP h
      · rcases List.mem_cons.1 h with h | h
        · exact hcd h.symm
        · exact hdS h
    rw [splitDots_two _ _ hdH hdot2]
    simp
  · -- tamper inside the signature segment
    obtain ⟨i, hi⟩ : ∃ i, k - H.length - 1 - P.length = i + 1 :=
      ⟨k - H.length - P.length - 2, by omega⟩
    have hiS : i < S.length := by omega
    have hset : (H ++ '.' :: (P ++ '.' :: S)).set k c =
        H ++ '.' :: (P ++ '.' :: S.set i c) := by
      rw [set_append_right _ _ _ (by omega : H.length ≤ k)]
      obtain ⟨j, hj⟩ : ∃ j, k - H.length = j + 1 := ⟨k - H.length - 1, by omega⟩
      rw [hj, List.set_cons_succ, set_append_right _ _ _ (by omega : P.length ≤ j)]
      obtain ⟨j2, hj2⟩ : ∃ j2, j - P.length = j2 + 1 := ⟨j - P.length - 1, by omega⟩
      rw [hj2, List.set_cons_succ]
      have : j2 = i := by omega
      rw [this]
    have hold : (H ++ '.' :: (P ++ '.' :: S)).get ⟨k, hk⟩ = S.get ⟨i, hiS⟩ := by
      simp only [List.get_eq_getElem]
      rw [List.getElem_append_right (by omega : H.length ≤ k)]
      obtain ⟨j, hj⟩ : ∃ j, k - H.length = j + 1 := ⟨k - H.length - 1, by omega⟩
      simp only [hj, List.getElem_cons_succ]
      rw [List.getElem_append_right (by omega : P.length ≤ j)]
      obtain ⟨j2, hj2⟩ : ∃ j2, j - P.length = j2 + 1 := ⟨j - P.length - 1, by omega⟩
      simp only [hj2, List.getElem_cons_succ]
      congr 1
      omega
    rw [hset]
    by_cases hcd : c = '.'
    · subst hcd
      have hSdec : S.set i '.' = S.take i ++ '.' :: S.drop (i + 1) := by
        rw [List.set_eq_take_append_cons_drop, if_pos hiS]
      rw [hSdec]
      have hsp4 : splitDots (H ++ '.' :: (P ++ '.' :: (S.take i ++ '.' :: S.drop (i + 1))))
          = [H, P, S.take i, S.drop (i + 1)] :=
        splitDots_four _ _ _ _ hdH hdP (not_mem_take S i hdS) (not_mem_drop S (i + 1) hdS)
      have hneq : S.take i ≠ mac secret (H ++ '.' :: P) := by
        intro heq
        have : S.take i = S := heq.trans hsig.symm
        have hlen := congrArg List.length this
        rw [List.length_take] at hlen
        omega
      rw [verifyToken_eq mac _ secret now _ _ _ [S.drop (i + 1)] hsp4, if_neg hneq]
    · have hdS2 : '.' ∉ S.set i c := not_mem_set S i c '.' hdS (fun h => hcd h.symm)
      have hsp3 : splitDots (H ++ '.' :: (P ++ '.' :: S.set i c)) = [H, P, S.set i c] :=
        splitDots_token _ _ _ hdH hdP hdS2
      have hneq : S.set i c ≠ mac secret (H ++ '.' :: P) := by
        intro heq
        have : S.set i c = S := heq.trans hsig.symm
        exact set_ne_of_get_ne S i hiS c (by rw [← hold]; exact hne) this
      rw [verifyToken_eq mac _ secret now _ _ _ [] hsp3, if_neg hneq]

-- ========================================
-- A concrete injective hex-valued stand-in for the HMAC primitive,
-- used by witnesses: the hex dump of the message (6 hex digits per
-- character).
-- ========================================

/-- One hex digit. -/
def hexDig (n : Nat) : Char := hexChars.getD n '0'

/-- Six hex digits covering every valid character code. -/
def hexOfChar (ch : Char) : Str :=
  [hexDig (ch.toNat / 1048576 % 16), hexDig (ch.toNat / 65536 % 16),
   hexDig (ch.toNat / 4096 % 16), hexDig (ch.toNat / 256 % 16),
   hexDig (ch.toNat / 16 % 16), hexDig (ch.toNat % 16)]

/-- Hex dump of a string. -/
def hexEnc : Str → Str
  | [] => []
  | ch :: r => hexOfChar ch ++ hexEnc r

/-- The witness MAC: ignores the secret, hex-dumps the message. -/
def macW : Str → Str → Str := fun _ m => hexEnc m

theorem char_toNat_lt (c : Char) : c.toNat < 1114112 := by
  have := c.valid
  rcases this with h | ⟨h1, h2⟩
  · simp [Char.toNat]; omega
  · simp [Char.toNat]; omega

theorem hexDig_inj : ∀ a : Nat, a < 16 → ∀ b : Nat, b < 16 →
    hexDig a = hexDig b → a = b := by
  decide

theorem hexOfChar_inj (a b : Char) (h : hexOfChar a = hexOfChar b) : a = b := by
  simp only [hexOfChar, List.cons.injEq, and_true] at h
  obtain ⟨h1, h2, h3, h4, h5, h6⟩ := h
  have e1 := hexDig_inj _ (Nat.mod_lt _ (by omega)) _ (Nat.mod_lt _ (by omega)) h1
  have e2 := hexDig_inj _ (Nat.mod_lt _ (by omega)) _ (Nat.mod_lt _ (by omega)) h2
  have e3 := hexDig_inj _ (Nat.mod_lt _ (by omega)) _ (Nat.mod_lt _ (by omega)) h3
  have e4 := hexDig_inj _ (Nat.mod_lt _ (by omega)) _ (Nat.mod_lt _ (by omega)) h4
  have e5 := hexDig_inj _ (Nat.mod_lt _ (by omega)) _ (Nat.mod_lt _ (by omega)) h5
  have e6 := hexDig_inj _ (Nat.mod_lt _ (by omega)) _ (Nat.mod_lt _ (by omega)) h6
  have ha := char_toNat_lt a
  have hb := char_toNat_lt b
  have hn : a.toNat = b.toNat := by omega
  rw [← ofNat_toNat_char a, ← ofNat_toNat_char b, hn]

theorem hexEnc_inj : ∀ m1 m2 : Str, hexEnc m1 = hexEnc m2 → m1 = m2 := by
  intro m1
  induction m1 with
  | nil =>
    intro m2 h
    cases m2 with
    | nil => rfl
    | cons b r2 =>
      exfalso
      have := congrArg List.length h
      simp [hexEnc, hexOfChar] at this
  | cons a r1 ih =>
    intro m2 h
    cases m2 with
    | nil =>
      exfalso
      have := congrArg List.length h
      simp [hexEnc, hexOfChar] at this
    | cons b r2 =>
      simp only [hexEnc] at h
      have hinj2 := List.append_inj h (by simp [hexOfChar])
      rw [hexOfChar_inj a b hinj2.1, ih r2 hinj2.2]

theorem hexDig_mem (n : Nat) : hexDig n ∈ hexChars := by
  by_cases h : n < hexChars.length
  · rw [hexDig, List.getD_eq_getElem _ _ h]
    exact List.getElem_mem h
  · rw [hexDig, List.getD_eq_default _ _ (by omega)]
    decide

theorem hexEnc_mem : ∀ m : Str, ∀ ch ∈ hexEnc m, ch ∈ hexChars := by
  intro m
  induction m with
  | nil => simp [hexEnc]
  | cons a r ih =>
    intro ch hch
    simp only [hexEnc, List.mem_append] at hch
    rcases hch with h | h
    · simp only [hexOfChar, List.mem_cons, List.mem_singleton] at h
      rcases h with h | h | h | h | h | h
      · rw [h]; exact hexDig_mem _
      · rw [h]; exact hexDig_mem _
      · rw [h]; exact hexDig_mem _
      · rw [h]; exact hexDig_mem _
      · rw [h]; exact hexDig_mem _
      · rcases h with h | h
        · rw [h]; exact hexDig_mem _
        · simp at h
    · exact ih ch h

/-- The witness token for tamper rejection: a well-formed three-segment
token signed with the hex-dump MAC. -/
def tW : Str := ehK ++ '.' :: (epK ++ '.' :: macW [] (ehK ++ '.' :: epK))

set_option maxRecDepth 100000 in
/-- Witness for C3 (amended) at a concrete token, position and character:
the first header character is changed from `e` to `f` and the token is
rejected. -/
theorem c3_tamper_rejected_witness :
    verifyToken macW (tW.set 0 'f') [] 0 = none :=
  c3_tamper_rejected macW [] (fun m1 m2 h => hexEnc_inj m1 m2 h)
    (fun msg ch hc => hexEnc_mem msg ch hc) tW 0 ⟨['u'], ['e'], ['r']⟩
    (by decide) (by decide) 0 (by decide) 'f' (by decide)

-- ========================================
-- Template variant (auth.ts of the starter template): jose-signed
-- session tokens, a sessions table, soft revocation.
-- ========================================

/-- The template variant's JWT claims: `{ sub, sid, email, iat, exp }`. -/
structure TokenPayload where
  sub : Str
  sid : Str
  email : Str
  iat : Nat
  exp : Nat
  deriving DecidableEq

/-- Modelled from the spec: the external `jose` library's compact JWS is
not under src/, so a token is modelled as its claims plus an HMAC-SHA256
signature over them (`alg: HS256`); the serialization layer is abstracted
away. -/
structure TokenT where
  payload : TokenPayload
  sig : Str
  deriving DecidableEq

/-- The template variant's users (Drizzle `users` schema): the columns
`validateSession` consults. -/
structure UserT where
  id : Str
  email : Str
  isActive : Bool
  lockedUntil : Option Nat
  deriving DecidableEq

/-- The template variant's sessions (Drizzle `sessions` schema). -/
structure SessionT where
  id : Str
  userId : Str
  tokenHash : Str
  isRevoked : Bool
  revokedAt : Option Nat
  revokedReason : Option Str
  expiresAt : Nat
  lastActivity : Nat
  deriving DecidableEq

/-- The template variant's database state. -/
structure DBT where
  users : List UserT
  sessions : List SessionT
  deriving DecidableEq

/-- `generateToken(user, sessionId, jwtSecret, ttlSeconds)` at Unix time
`now` (seconds): claims with `iat = now`, `exp = now + ttl`, signed. -/
def generateTokenT (mac : Str → TokenPayload → Str) (user : UserT) (sessionId : Str)
    (jwtSecret : Str) (ttlSeconds now : Nat) : TokenT :=
  let payload : TokenPayload := ⟨user.id, sessionId, user.email, now, now + ttlSeconds⟩
  ⟨payload, mac jwtSecret payload⟩

/-- Modelled from the spec: `jose.jwtVerify` (external library) checks the
HMAC signature and rejects a token whose expiry is not after the current
time (RFC 7519 `exp`); any failure is caught and `verifyToken` returns
null. -/
def verifyTokenT (mac : Str → TokenPayload → Str) (t : TokenT) (jwtSecret : Str)
    (now : Nat) : Option TokenPayload :=
  if t.sig = mac jwtSecret t.payload ∧ now < t.payload.exp then some t.payload else none

/-- The session-row predicate of `validateSession`'s query:
`id = payload.sid AND isRevoked = false AND expiresAt > now`. -/
def sessionMatches (sid : Str) (now : Nat) (s : SessionT) : Bool :=
  s.id = sid ∧ s.isRevoked = false ∧ now < s.expiresAt

/-- The user-row predicate of `validateSession`'s query:
`id = payload.sub AND isActive = true AND lockedUntil IS NULL`. -/
def userMatches (uid : Str) (u : UserT) : Bool :=
  u.id = uid ∧ u.isActive = true ∧ u.lockedUntil = none

/-- `validateSession(db, token, jwtSecret)` at time `now`: verify the JWT,
look up the session row by the embedded session id (non-revoked,
non-expired), look up the owning user (active, unlocked), update
`lastActivity`, and return user and session; `null` on any failure.
The stored `tokenHash` is never consulted. -/
def validateSession (mac : Str → TokenPayload → Str) (db : DBT) (t : TokenT)
    (jwtSecret : Str) (now : Nat) : Option (UserT × SessionT) × DBT :=
  match verifyTokenT mac t jwtSecret now with
  | none => (none, db)
  | some payload =>
    match db.sessions.find? (sessionMatches payload.sid now) with
    | none => (none, db)
    | some session =>
      match db.users.find? (userMatches payload.sub) with
      | none => (none, db)
      | some user =>
        (some (user, session),
         { db with sessions := db.sessions.map (fun s =>
             if s.id = session.id then { s with lastActivity := now } else s) })

/-- `createSession(db, userId, request, jwtSecret, ttlSeconds)` at time
`now` (milliseconds): look up the user (else throw, modelled as `none`),
issue a token, store its hash, insert one session row. -/
def createSession (mac : Str → TokenPayload → Str) (sha : TokenT → Str) (db : DBT)
    (userId sessionId jwtSecret : Str) (ttlSeconds now : Nat) :
    Option ((SessionT × TokenT) × DBT) :=
  match db.users.find? (fun u => u.id = userId) with
  | none => none
  | some user =>
    let token := generateTokenT mac user sessionId jwtSecret ttlSeconds (now / 1000)
    let session : SessionT :=
      ⟨sessionId, userId, sha token, false, none, none, now + ttlSeconds * 1000, now⟩
    some ((session, token), { db with sessions := db.sessions ++ [session] })

/-- `revokeSession(db, sessionId, reason)` at time `now`: set the
revocation flag, timestamp and reason on the matching row. -/
def revokeSession (db : DBT) (sessionId : Str) (reason : Option Str) (now : Nat) : DBT :=
  { db with sessions := db.sessions.map (fun s =>
      if s.id = sessionId then
        { s with isRevoked := true, revokedAt := some now, revokedReason := reason }
      else s) }

/-- `revokeAllSessions(db, userId, reason)` at time `now`: set the
revocation fields on every non-revoked row of the user. -/
def revokeAllSessions (db : DBT) (userId : Str) (reason : Option Str) (now : Nat) : DBT :=
  { db with sessions := db.sessions.map (fun s =>
      if s.userId = userId ∧ s.isRevoked = false then
        { s with isRevoked := true, revokedAt := some now, revokedReason := reason }
      else s) }

/-- C5: a token issued with `ttlSeconds = 0` is rejected by the verifier
after any nonzero delay, for every user, session id and secret.  (The
expiry comparison lives in the external jose library and is modelled from
the spec: reject when the current time is not before `exp`.) -/
theorem c5_zero_ttl_rejected (mac : Str → TokenPayload → Str) (u : UserT)
    (sid : Str) (secret : Str) (iat d : Nat) (hd : 0 < d) :
    verifyTokenT mac (generateTokenT mac u sid secret 0 iat) secret (iat + d) = none := by
  simp [verifyTokenT, generateTokenT]

/-- Witness for C5 at a concrete user, secret and delay. -/
theorem c5_zero_ttl_rejected_witness :
    verifyTokenT (fun _ _ => ['s'])
      (generateTokenT (fun _ _ => ['s']) ⟨['u'], ['e'], true, none⟩ ['s', '1'] ['k'] 0 5)
      ['k'] 6 = none :=
  c5_zero_ttl_rejected (fun _ _ => ['s']) ⟨['u'], ['e'], true, none⟩ ['s', '1'] ['k'] 5 1
    (by decide)

-- concrete material for the C1 counterexample
/-- A concrete template-variant MAC stand-in. -/
def macT0 : Str → TokenPayload → Str := fun _ _ => ['s']

/-- A concrete SHA-256 stand-in for `hashToken`. -/
def shaT0 : TokenT → Str := fun _ => ['X']

/-- A session row whose stored `tokenHash` does not match the presented
token's hash. -/
def s1 : SessionT := ⟨['s'], ['u'], ['Y'], false, none, none, 100, 0⟩

/-- The owning user: active, not locked. -/
def u1 : UserT := ⟨['u'], ['e'], true, none⟩

/-- The database for the counterexample. -/
def db1 : DBT := ⟨[u1], [s1]⟩

/-- A signed unexpired token bound to session `s1`. -/
def tok1 : TokenT := ⟨⟨['u'], ['s'], ['e'], 0, 50⟩, ['s']⟩

/-- C1 counterexample: `validateSession` accepts a token although the
SHA-256 hash of the presented token differs from the `tokenHash` stored
in the session row — the stored hash is never compared. -/
theorem c1_counterexample :
    (validateSession macT0 db1 tok1 [] 10).1 = some (u1, s1) ∧
    shaT0 tok1 ≠ s1.tokenHash := by
  decide

/-- C1 (amended): a bearer token is accepted by `validateSession`
(returning a user and session) if and only if the JWT signature verifies
and is unexpired, a session row whose id equals the token's embedded
session id exists that is not revoked and not expired, and the owning
user is active and not locked.  The stored `tokenHash` is not part of the
check. -/
theorem c1_validate_characterization (mac : Str → TokenPayload → Str) (db : DBT)
    (t : TokenT) (secret : Str) (now : Nat) :
    (∃ us, (validateSession mac db t secret now).1 = some us) ↔
      (∃ pl, verifyTokenT mac t secret now = some pl ∧
        (∃ s ∈ db.sessions, sessionMatches pl.sid now s = true) ∧
        (∃ u ∈ db.users, userMatches pl.sub u = true)) := by
  unfold validateSession
  cases hv : verifyTokenT mac t secret now with
  | none => simp
  | some pl =>
    simp only [Option.some.injEq]
    cases hfs : db.sessions.find? (sessionMatches pl.sid now) with
    | none =>
      simp only []
      constructor
      · rintro ⟨us, hus⟩
        simp at hus
      · rintro ⟨pl2, hpl2, ⟨s, hsmem, hsmatch⟩, -⟩
        obtain rfl : pl2 = pl := hpl2.symm
        exact absurd hsmatch (by
          have := List.find?_eq_none.1 hfs s hsmem
          simpa using this)
    | some sess =>
      cases hfu : db.users.find? (userMatches pl.sub) with
      | none =>
        simp only []
        constructor
        · rintro ⟨us, hus⟩
          simp at hus
        · rintro ⟨pl2, hpl2, -, ⟨u, humem, humatch⟩⟩
          obtain rfl : pl2 = pl := hpl2.symm
          exact absurd humatch (by
            have := List.find?_eq_none.1 hfu u humem
            simpa using this)
      | some user =>
        simp only []
        constructor
        · intro _
          refine ⟨pl, rfl, ⟨sess, ?_, ?_⟩, ⟨user, ?_, ?_⟩⟩
          · exact List.mem_of_find?_eq_some hfs
          · exact List.find?_some hfs
          · exact List.mem_of_find?_eq_some hfu
          · exact List.find?_some hfu
        · intro _
          exact ⟨(user, sess), rfl⟩

/-- Witness for C1 (amended): the characterization at the concrete
counterexample state. -/
theorem c1_validate_characterization_witness :
    (∃ us, (validateSession macT0 db1 tok1 [] 10).1 = some us) ↔
      (∃ pl, verifyTokenT macT0 tok1 [] 10 = some pl ∧
        (∃ s ∈ db1.sessions, sessionMatches pl.sid 10 s = true) ∧
        (∃ u ∈ db1.users, userMatches pl.sub u = true)) :=
  c1_validate_characterization macT0 db1 tok1 [] 10

-- ========================================
-- C9: soft revocation and its permanence over operation traces
-- ========================================

/-- The session-store operations of auth.ts. -/
inductive AuthOp where
  | create (userId sessionId : Str) (ttl now : Nat)
  | revoke (sessionId : Str) (reason : Option Str) (now : Nat)
  | revokeAll (userId : Str) (reason : Option Str) (now : Nat)
  | validate (t : TokenT) (secret : Str) (now : Nat)

/-- Effect of one operation on the database (a throwing `createSession`
leaves it unchanged). -/
def applyOp (mac : Str → TokenPayload → Str) (sha : TokenT → Str) (db : DBT) :
    AuthOp → DBT
  | .create uid sid ttl now =>
      match createSession mac sha db uid sid [] ttl now with
      | none => db
      | some (_, db2) => db2
  | .revoke sid r now => revokeSession db sid r now
  | .revokeAll uid r now => revokeAllSessions db uid r now
  | .validate t secret now => (validateSession mac db t secret now).2

/-- Effect of a trace of operations. -/
def applyOps (mac : Str → TokenPayload → Str) (sha : TokenT → Str) (db : DBT) :
    List AuthOp → DBT
  | [] => db
  | op :: ops => applyOps mac sha (applyOp mac sha db op) ops

/-- Every `create` in the trace uses a session id not present at that
moment (crypto.randomUUID freshness). -/
def freshCreates (mac : Str → TokenPayload → Str) (sha : TokenT → Str) (db : DBT) :
    List AuthOp → Bool
  | [] => true
  | op :: ops =>
      (match op with
        | .create _ sid _ _ => db.sessions.all (fun s => !(s.id = sid))
        | _ => true) && freshCreates mac sha (applyOp mac sha db op) ops

/-- The permanence invariant: some row carries the id and every row
carrying it is revoked. -/
def RevokedId (db : DBT) (sid : Str) : Prop :=
  (∃ s ∈ db.sessions, s.id = sid) ∧ ∀ s ∈ db.sessions, s.id = sid → s.isRevoked = true

theorem revokedId_applyOp (mac : Str → TokenPayload → Str) (sha : TokenT → Str)
    (db : DBT) (sid : Str) (hinv : RevokedId db sid) (op : AuthOp)
    (hfresh : (match op with
      | .create _ sid2 _ _ => db.sessions.all (fun s => !(s.id = sid2))
      | _ => true) = true) :
    RevokedId (applyOp mac sha db op) sid := by
  obtain ⟨⟨s0, hs0mem, hs0id⟩, hall⟩ := hinv
  cases op with
  | create uid sid2 ttl now =>
    simp only [applyOp]
    cases hcr : createSession mac sha db uid sid2 [] ttl now with
    | none => exact ⟨⟨s0, hs0mem, hs0id⟩, hall⟩
    | some pr =>
      obtain ⟨pr1, db2⟩ := pr
      simp only [createSession] at hcr
      cases hfind : db.users.find? (fun u => u.id = uid) with
      | none => rw [hfind] at hcr; simp at hcr
      | some user =>
        rw [hfind] at hcr
        simp only [Option.some.injEq, Prod.mk.injEq] at hcr
        obtain ⟨-, hdb2⟩ := hcr
        constructor
        · exact ⟨s0, by rw [← hdb2]; simp [hs0mem], hs0id⟩
        · intro s hs hsid
          rw [← hdb2] at hs
          simp only [List.mem_append, List.mem_singleton] at hs
          rcases hs with hs | hs
          · exact hall s hs hsid
          · exfalso
            have hfr : ∀ x ∈ db.sessions, ¬x.id = sid2 := by simpa using hfresh
            rw [hs] at hsid
            simp at hsid
            exact hfr s0 hs0mem (hs0id.trans hsid.symm)
  | revoke sid2 r now =>
    simp only [applyOp, revokeSession]
    constructor
    · refine ⟨if s0.id = sid2 then
        { s0 with isRevoked := true, revokedAt := some now, revokedReason := r } else s0,
        ?_, ?_⟩
      · rw [List.mem_map]
        exact ⟨s0, hs0mem, by split <;> simp_all⟩
      · split <;> simp [hs0id]
    · intro s hs hsid
      rw [List.mem_map] at hs
      obtain ⟨s2, hs2mem, hs2eq⟩ := hs
      by_cases h2 : s2.id = sid2
      · rw [if_pos h2] at hs2eq
        rw [← hs2eq]
      · rw [if_neg h2] at hs2eq
        subst hs2eq
        exact hall s2 hs2mem hsid
  | revokeAll uid r now =>
    simp only [applyOp, revokeAllSessions]
    constructor
    · refine ⟨if s0.userId = uid ∧ s0.isRevoked = false then
        { s0 with isRevoked := true, revokedAt := some now, revokedReason := r } else s0,
        ?_, ?_⟩
      · rw [List.mem_map]
        exact ⟨s0, hs0mem, by split <;> simp_all⟩
      · split <;> simp [hs0id]
    · intro s hs hsid
      rw [List.mem_map] at hs
      obtain ⟨s2, hs2mem, hs2eq⟩ := hs
      by_cases h2 : s2.userId = uid ∧ s2.isRevoked = false
      · rw [if_pos h2] at hs2eq
        rw [← hs2eq]
      · rw [if_neg h2] at hs2eq
        subst hs2eq
        exact hall s2 hs2mem hsid
  | validate t secret now =>
    simp only [applyOp, validateSession]
    split
    · exact ⟨⟨s0, hs0mem, hs0id⟩, hall⟩
    split
    · exact ⟨⟨s0, hs0mem, hs0id⟩, hall⟩
    split
    · exact ⟨⟨s0, hs0mem, hs0id⟩, hall⟩
    rename_i o1 pl hv o2 sess hfs o3 user hfu
    constructor
    · refine ⟨if s0.id = sess.id then { s0 with lastActivity := now } else s0, ?_, ?_⟩
      · exact List.mem_map_of_mem _ hs0mem
      · split <;> simp [hs0id]
    · intro s hs hsid
      have hs2 := List.mem_map.1 hs
      obtain ⟨s2, hs2mem, hs2eq⟩ := hs2
      by_cases h2 : s2.id = sess.id
      · rw [if_pos h2] at hs2eq
        subst hs2eq
        simp at hsid
        exact hall s2 hs2mem hsid
      · rw [if_neg h2] at hs2eq
        subst hs2eq
        exact hall s2 hs2mem hsid

theorem revokedId_applyOps (mac : Str → TokenPayload → Str) (sha : TokenT → Str) :
    ∀ (ops : List AuthOp) (db : DBT) (sid : Str), RevokedId db sid →
    freshCreates mac sha db ops = true → RevokedId (applyOps mac sha db ops) sid := by
  intro ops
  induction ops with
  | nil => intro db sid hinv _; exact hinv
  | cons op rest ih =>
    intro db sid hinv hfresh
    simp only [freshCreates, Bool.and_eq_true] at hfresh
    exact ih _ sid (revokedId_applyOp mac sha db sid hinv op hfresh.1) hfresh.2

theorem validate_none_of_revokedId (mac : Str → TokenPayload → Str) (db : DBT)
    (sid : Str) (hinv : RevokedId db sid) (t : TokenT) (hsid : t.payload.sid = sid)
    (secret : Str) (now : Nat) : (validateSession mac db t secret now).1 = none := by
  obtain ⟨-, hall⟩ := hinv
  unfold validateSession
  split
  · rfl
  rename_i pl hv
  have hpl : pl = t.payload := by
    unfold verifyTokenT at hv
    split at hv
    · exact (Option.some.inj hv).symm
    · simp at hv
  split
  · rfl
  rename_i sess hfs
  exfalso
  have hmatch := List.find?_some hfs
  have hmem := List.mem_of_find?_eq_some hfs
  simp only [sessionMatches, hpl, hsid] at hmatch
  simp at hmatch
  have hrev := hall sess hmem hmatch.1
  rw [hrev] at hmatch
  exact absurd hmatch.2.1 (by simp)

/-- C9: revocation is soft and permanent.  (a) `revokeSession` keeps
every row in place — same count, and each row keeps its id, user, token
hash, expiry and last activity, with rows of other ids untouched — so
rows are flagged, never deleted; (b) likewise `revokeAllSessions`, which
touches only the user's non-revoked rows; (c) once every row carrying a
session id is revoked, then after any trace of create / revoke /
revoke-all / validate operations in which creates use fresh ids, no
`validateSession` call accepts a token bound to that session id. -/
theorem c9_revocation_soft_and_permanent (mac : Str → TokenPayload → Str)
    (sha : TokenT → Str) (db : DBT) (sid uid : Str) (reason : Option Str) (now : Nat) :
    ((revokeSession db sid reason now).sessions.length = db.sessions.length ∧
      ∀ i (hi : i < db.sessions.length),
        ((revokeSession db sid reason now).sessions.get
            ⟨i, by simp [revokeSession]; omega⟩).id = (db.sessions.get ⟨i, hi⟩).id ∧
        ((revokeSession db sid reason now).sessions.get
            ⟨i, by simp [revokeSession]; omega⟩).userId = (db.sessions.get ⟨i, hi⟩).userId ∧
        ((revokeSession db sid reason now).sessions.get
            ⟨i, by simp [revokeSession]; omega⟩).tokenHash = (db.sessions.get ⟨i, hi⟩).tokenHash ∧
        ((revokeSession db sid reason now).sessions.get
            ⟨i, by simp [revokeSession]; omega⟩).expiresAt = (db.sessions.get ⟨i, hi⟩).expiresAt ∧
        ((revokeSession db sid reason now).sessions.get
            ⟨i, by simp [revokeSession]; omega⟩).lastActivity = (db.sessions.get ⟨i, hi⟩).lastActivity ∧
        ((db.sessions.get ⟨i, hi⟩).id ≠ sid →
          (revokeSession db sid reason now).sessions.get
            ⟨i, by simp [revokeSession]; omega⟩ = db.sessions.get ⟨i, hi⟩)) ∧
    ((revokeAllSessions db uid reason now).sessions.length = db.sessions.length ∧
      ∀ i (hi : i < db.sessions.length),
        ((revokeAllSessions db uid reason now).sessions.get
            ⟨i, by simp [revokeAllSessions]; omega⟩).id = (db.sessions.get ⟨i, hi⟩).id ∧
        ((revokeAllSessions db uid reason now).sessions.get
            ⟨i, by simp [revokeAllSessions]; omega⟩).tokenHash = (db.sessions.get ⟨i, hi⟩).tokenHash ∧
        (((db.sessions.get ⟨i, hi⟩).userId ≠ uid ∨ (db.sessions.get ⟨i, hi⟩).isRevoked = true) →
          (revokeAllSessions db uid reason now).sessions.get
            ⟨i, by simp [revokeAllSessions]; omega⟩ = db.sessions.get ⟨i, hi⟩)) ∧
    (((∃ s0 ∈ db.sessions, s0.id = sid) ∧
        (∀ s0 ∈ db.sessions, s0.id = sid → s0.isRevoked = true)) →
      ∀ ops : List AuthOp, freshCreates mac sha db ops = true →
      ∀ t : TokenT, t.payload.sid = sid →
      ∀ (secret : Str) (now2 : Nat),
        (validateSession mac (applyOps mac sha db ops) t secret now2).1 = none) := by
  refine ⟨⟨by simp [revokeSession], ?_⟩, ⟨by simp [revokeAllSessions], ?_⟩, ?_⟩
  · intro i hi
    have hmap : ∀ (hlen : i < (revokeSession db sid reason now).sessions.length),
        (revokeSession db sid reason now).sessions.get ⟨i, hlen⟩ =
          (if (db.sessions.get ⟨i, hi⟩).id = sid then
            { db.sessions.get ⟨i, hi⟩ with
                isRevoked := true,
                revokedAt := some now,
                revokedReason := reason }
          else db.sessions.get ⟨i, hi⟩) := by
      intro hlen
      simp [revokeSession, List.get_eq_getElem, List.getElem_map]
    refine ⟨?_, ?_, ?_, ?_, ?_, ?_⟩
    · rw [hmap]; split <;> rfl
    · rw [hmap]; split <;> rfl
    · rw [hmap]; split <;> rfl
    · rw [hmap]; split <;> rfl
    · rw [hmap]; split <;> rfl
    · intro hne
      rw [hmap, if_neg hne]
  · intro i hi
    have hmap : ∀ (hlen : i < (revokeAllSessions db uid reason now).sessions.length),
        (revokeAllSessions db uid reason now).sessions.get ⟨i, hlen⟩ =
          (if (db.sessions.get ⟨i, hi⟩).userId = uid ∧
              (db.sessions.get ⟨i, hi⟩).isRevoked = false then
            { db.sessions.get ⟨i, hi⟩ with
                isRevoked := true,
                revokedAt := some now,
                revokedReason := reason }
          else db.sessions.get ⟨i, hi⟩) := by
      intro hlen
      simp [revokeAllSessions, List.get_eq_getElem, List.getElem_map]
    refine ⟨?_, ?_, ?_⟩
    · rw [hmap]; split <;> rfl
    · rw [hmap]; split <;> rfl
    · intro hcond
      rw [hmap]
      rw [if_neg ?_]
      rcases hcond with h | h
      · intro hcon
        exact h hcon.1
      · intro hcon
        rw [h] at hcon
        exact absurd hcon.2 (by simp)
  · rintro ⟨hex, hall⟩ ops hfresh t hsid secret now2
    exact validate_none_of_revokedId mac _ sid
      (revokedId_applyOps mac sha ops db sid ⟨hex, hall⟩ hfresh) t hsid secret now2

/-- A revoked session row, owner, database and bound token for the C9
witness. -/
def sR : SessionT := ⟨['s'], ['u'], ['Y'], true, some 3, none, 100, 0⟩

/-- Database with one revoked session. -/
def dbR : DBT := ⟨[u1], [sR]⟩

/-- A token bound to the revoked session. -/
def tokR : TokenT := ⟨⟨['u'], ['s'], ['e'], 0, 50⟩, ['s']⟩

/-- Witness for C9 at a concrete database and trace: after revocation and
a fresh create, a token bound to the revoked session is rejected. -/
theorem c9_revocation_witness :
    (validateSession macT0
      (applyOps macT0 shaT0 dbR [AuthOp.create ['u'] ['s', '2'] 10 0])
      tokR [] 5).1 = none :=
  (c9_revocation_soft_and_permanent macT0 shaT0 dbR ['s'] ['u'] none 7).2.2
    ⟨⟨sR, by decide, by decide⟩, by decide⟩
    [AuthOp.create ['u'] ['s', '2'] 10 0] (by decide) tokR (by decide) [] 5

-- ========================================
-- Job-portal route handlers (userRoutes.ts + db.ts): applications (C7)
-- and job ownership (C8)
-- ========================================

/-- Application status enum of the schema (default `pending`). -/
inductive AppStatus where
  | pending
  | accepted
  | rejected
  deriving DecidableEq

/-- Rows of the `jobs` table: key columns plus the updatable payload
columns collapsed into one field. -/
structure JobRow where
  id : Str
  companyId : Str
  payload : Str
  deriving DecidableEq

/-- Rows of the `companies` table (one per recruiter). -/
structure CompanyRow where
  id : Str
  userId : Str
  deriving DecidableEq

/-- Rows of the `applications` table. -/
structure ApplicationRow where
  id : Str
  jobId : Str
  userId : Str
  coverLetter : Option Str
  status : AppStatus
  deriving DecidableEq

/-- The D1 database of the job-portal variant. -/
structure PortalDB where
  jobs : List JobRow
  companies : List CompanyRow
  applications : List ApplicationRow
  deriving DecidableEq

/-- An HTTP response: status code and error message. -/
structure Response where
  status : Nat
  error : Option Str
  deriving DecidableEq

/-- `db.getJobById`: `SELECT * FROM jobs WHERE id = ?` (first row). -/
def getJobById (db : PortalDB) (id : Str) : Option JobRow :=
  db.jobs.find? (fun j => j.id = id)

/-- `db.getCompanyByUserId`: `SELECT * FROM companies WHERE user_id = ?`. -/
def getCompanyByUserId (db : PortalDB) (userId : Str) : Option CompanyRow :=
  db.companies.find? (fun co => co.userId = userId)

/-- `db.getApplicationByJobAndUser`:
`SELECT * FROM applications WHERE job_id = ? AND user_id = ?`. -/
def getApplicationByJobAndUser (db : PortalDB) (jobId userId : Str) :
    Option ApplicationRow :=
  db.applications.find? (fun a => a.jobId = jobId ∧ a.userId = userId)

/-- `db.createApplication`: INSERT with default status `pending`. -/
def createApplication (db : PortalDB) (id jobId userId : Str)
    (coverLetter : Option Str) : PortalDB :=
  { db with applications :=
      db.applications ++ [⟨id, jobId, userId, coverLetter, AppStatus.pending⟩] }

/-- `db.updateJob`: UPDATE the non-key columns of the matching row. -/
def updateJob (db : PortalDB) (id : Str) (patch : Str → Str) : PortalDB :=
  { db with jobs := db.jobs.map (fun j =>
      if j.id = id then { j with payload := patch j.payload } else j) }

/-- `db.deleteJob`: `DELETE FROM jobs WHERE id = ?`. -/
def deleteJob (db : PortalDB) (id : Str) : PortalDB :=
  { db with jobs := db.jobs.filter (fun j => !(j.id = id)) }

/-- Error text of the duplicate-application response. -/
def alreadyApplied : Str := ("Already applied to this job").toList

/-- Error text of the missing-job response. -/
def jobNotFound : Str := ("Job not found").toList

/-- Error text of the ownership response. -/
def forbiddenMsg : Str := ("Forbidden").toList

/-- `POST /api/applications` (after auth and role middleware): 404 if the
job does not exist, 400 if an application by this user for this job
already exists, else insert one row. -/
def applyHandler (db : PortalDB) (userId jobId : Str) (coverLetter : Option Str)
    (newId : Str) : Response × PortalDB :=
  match getJobById db jobId with
  | none => (⟨404, some jobNotFound⟩, db)
  | some _ =>
    match getApplicationByJobAndUser db jobId userId with
    | some _ => (⟨400, some alreadyApplied⟩, db)
    | none => (⟨200, none⟩, createApplication db newId jobId userId coverLetter)

/-- `PUT /api/jobs/:id` (after auth and recruiter-role middleware): 404 if
the job does not exist, 403 unless the requesting recruiter's company
owns it, else update. -/
def updateJobHandler (db : PortalDB) (userId jobId : Str) (patch : Str → Str) :
    Response × PortalDB :=
  match getJobById db jobId with
  | none => (⟨404, some jobNotFound⟩, db)
  | some job =>
    match getCompanyByUserId db userId with
    | none => (⟨403, some forbiddenMsg⟩, db)
    | some company =>
      if job.companyId = company.id then (⟨200, none⟩, updateJob db jobId patch)
      else (⟨403, some forbiddenMsg⟩, db)

/-- `DELETE /api/jobs/:id`: same ownership check, then delete. -/
def deleteJobHandler (db : PortalDB) (userId jobId : Str) : Response × PortalDB :=
  match getJobById db jobId with
  | none => (⟨404, some jobNotFound⟩, db)
  | some job =>
    match getCompanyByUserId db userId with
    | none => (⟨403, some forbiddenMsg⟩, db)
    | some company =>
      if job.companyId = company.id then (⟨200, none⟩, deleteJob db jobId)
      else (⟨403, some forbiddenMsg⟩, db)

/-- C7: if the job exists and an application by the user for it already
exists, a second POST /api/applications returns 400 "Already applied to
this job" and leaves the database — in particular the applications table
and the first application — unchanged. -/
theorem c7_duplicate_application (db : PortalDB) (userId jobId : Str)
    (coverLetter : Option Str) (newId : Str)
    (hjob : ∃ j ∈ db.jobs, j.id = jobId)
    (hexisting : ∃ a ∈ db.applications, a.jobId = jobId ∧ a.userId = userId) :
    applyHandler db userId jobId coverLetter newId = (⟨400, some alreadyApplied⟩, db) := by
  unfold applyHandler
  cases hfj : getJobById db jobId with
  | none =>
    exfalso
    obtain ⟨j, hjmem, hjid⟩ := hjob
    have := List.find?_eq_none.1 hfj j hjmem
    simp [hjid] at this
  | some job =>
    cases hfa : getApplicationByJobAndUser db jobId userId with
    | none =>
      exfalso
      obtain ⟨a, hamem, haid⟩ := hexisting
      have := List.find?_eq_none.1 hfa a hamem
      simp [haid.1, haid.2] at this
    | some app => rfl

/-- Witness for C7 at a concrete database. -/
theorem c7_duplicate_application_witness :
    applyHandler
      ⟨[⟨['j'], ['c'], []⟩], [], [⟨['a'], ['j'], ['u'], none, AppStatus.pending⟩]⟩
      ['u'] ['j'] none ['n'] =
      (⟨400, some alreadyApplied⟩,
        ⟨[⟨['j'], ['c'], []⟩], [], [⟨['a'], ['j'], ['u'], none, AppStatus.pending⟩]⟩) :=
  c7_duplicate_application
    ⟨[⟨['j'], ['c'], []⟩], [], [⟨['a'], ['j'], ['u'], none, AppStatus.pending⟩]⟩
    ['u'] ['j'] none ['n']
    ⟨⟨['j'], ['c'], []⟩, by decide, by decide⟩
    ⟨⟨['a'], ['j'], ['u'], none, AppStatus.pending⟩, by decide, by decide⟩

/-- C8: for an existing job, PUT and DELETE /api/jobs/:id return 403 and
leave the database unchanged whenever the requesting recruiter has no
company or their company does not own the job; the update or delete is
performed exactly when the recruiter's company owns the job. -/
theorem c8_job_ownership (db : PortalDB) (userId jobId : Str) (patch : Str → Str)
    (job : JobRow) (hjob : getJobById db jobId = some job) :
    ((getCompanyByUserId db userId = none ∨
      (∃ co, getCompanyByUserId db userId = some co ∧ job.companyId ≠ co.id)) →
      updateJobHandler db userId jobId patch = (⟨403, some forbiddenMsg⟩, db) ∧
      deleteJobHandler db userId jobId = (⟨403, some forbiddenMsg⟩, db)) ∧
    (∀ co, getCompanyByUserId db userId = some co → job.companyId = co.id →
      updateJobHandler db userId jobId patch = (⟨200, none⟩, updateJob db jobId patch) ∧
      deleteJobHandler db userId jobId = (⟨200, none⟩, deleteJob db jobId)) := by
  constructor
  · intro hno
    unfold updateJobHandler deleteJobHandler
    rw [hjob]
    rcases hno with hnone | ⟨co, hco, hne⟩
    · rw [hnone]
      exact ⟨rfl, rfl⟩
    · simp [hco, hne]
  · intro co hco hown
    unfold updateJobHandler deleteJobHandler
    rw [hjob]
    simp [hco, hown]

/-- Witness for C8 at a concrete database: a recruiter whose company does
not own the job is rejected. -/
theorem c8_job_ownership_witness :
    updateJobHandler
      ⟨[⟨['j'], ['c'], []⟩], [⟨['d'], ['u']⟩], []⟩ ['u'] ['j'] (fun s => s) =
      (⟨403, some forbiddenMsg⟩, ⟨[⟨['j'], ['c'], []⟩], [⟨['d'], ['u']⟩], []⟩) :=
  ((c8_job_ownership ⟨[⟨['j'], ['c'], []⟩], [⟨['d'], ['u']⟩], []⟩ ['u'] ['j'] (fun s => s)
    ⟨['j'], ['c'], []⟩ (by decide)).1
    (Or.inr ⟨⟨['d'], ['u']⟩, by decide, by decide⟩)).1

-- ========================================
-- In-memory rate limiter (rate-limit.ts)
-- ========================================

/-- `createRateLimiter` configuration. -/
structure RLConfig where
  windowMs : Nat
  maxRequests : Nat

/-- One `clients` map entry. -/
structure RLEntry where
  count : Nat
  resetTime : Nat
  deriving DecidableEq

/-- The `clients` Map, keyed by client id. -/
def RLState := Str → Option RLEntry

/-- The result of `check`. -/
structure RLResult where
  allowed : Bool
  remaining : Int
  resetTime : Nat
  deriving DecidableEq

/-- `Map.set`. -/
def setClient (st : RLState) (id : Str) (e : RLEntry) : RLState :=
  fun x => if x = id then some e else st x

/-- The `cleanup` closure: delete every entry whose window has expired. -/
def cleanup (now : Nat) (st : RLState) : RLState :=
  fun x => match st x with
    | none => none
    | some e => if e.resetTime < now then none else some e

/-- `limiter.check(clientId)` at time `now`.  `doCleanup` is the outcome
of the `Math.random() < 0.01` coin. -/
def check (cfg : RLConfig) (doCleanup : Bool) (now : Nat) (clientId : Str)
    (st : RLState) : RLResult × RLState :=
  let st1 := if doCleanup then cleanup now st else st
  match st1 clientId with
  | none =>
      let e : RLEntry := ⟨1, now + cfg.windowMs⟩
      (⟨true, (cfg.maxRequests : Int) - 1, e.resetTime⟩, setClient st1 clientId e)
  | some e =>
      if e.resetTime < now then
        let e2 : RLEntry := ⟨1, now + cfg.windowMs⟩
        (⟨true, (cfg.maxRequests : Int) - 1, e2.resetTime⟩, setClient st1 clientId e2)
      else
        let e2 : RLEntry := ⟨e.count + 1, e.resetTime⟩
        if e.count + 1 > cfg.maxRequests then
          (⟨false, 0, e.resetTime⟩, setClient st1 clientId e2)
        else
          (⟨true, (cfg.maxRequests : Int) - (e.count + 1), e.resetTime⟩,
            setClient st1 clientId e2)

/-- A sequence of `check` calls for one client at given (time, coin)
pairs. -/
def checkSeq (cfg : RLConfig) (client : Str) :
    List (Nat × Bool) → RLState → List RLResult × RLState
  | [], st => ([], st)
  | (now, dc) :: rest, st =>
      let p := check cfg dc now client st
      let q := checkSeq cfg client rest p.2
      (p.1 :: q.1, q.2)

/-- The expected result of the call that brings the window counter to
`n`. -/
def expectedResult (cfg : RLConfig) (R n : Nat) : RLResult :=
  if n ≤ cfg.maxRequests then ⟨true, (cfg.maxRequests : Int) - n, R⟩
  else ⟨false, 0, R⟩

theorem cleanup_keeps (now : Nat) (st : RLState) (id : Str) (e : RLEntry)
    (h : st id = some e) (hne : ¬e.resetTime < now) : cleanup now st id = some e := by
  simp [cleanup, h, hne]

theorem setClient_same (st : RLState) (id : Str) (e : RLEntry) :
    setClient st id e id = some e := by
  simp [setClient]

/-- One in-window call: counter bumps, result determined by the counter. -/
theorem check_in_window (cfg : RLConfig) (dc : Bool) (now : Nat) (client : Str)
    (st : RLState) (e : RLEntry) (hlook : st client = some e)
    (hnexp : ¬e.resetTime < now) :
    (check cfg dc now client st).1 = expectedResult cfg e.resetTime (e.count + 1) ∧
    (check cfg dc now client st).2 client = some ⟨e.count + 1, e.resetTime⟩ := by
  have hst1 : (if dc = true then cleanup now st else st) client = some e := by
    cases dc with
    | false => simpa using hlook
    | true => simpa using cleanup_keeps now st client e hlook hnexp
  simp only [check, hst1]
  rw [if_neg hnexp]
  by_cases hover : e.count + 1 > cfg.maxRequests
  · rw [if_pos hover]
    refine ⟨?_, setClient_same _ _ _⟩
    simp only [expectedResult]
    rw [if_neg (by omega)]
  · rw [if_neg hover]
    refine ⟨?_, setClient_same _ _ _⟩
    simp only [expectedResult]
    rw [if_pos (by omega)]
    congr 1

/-- The whole in-window sequence, by induction from a counter value. -/
theorem checkSeq_in_window (cfg : RLConfig) (client : Str) (R : Nat) :
    ∀ (calls : List (Nat × Bool)) (st : RLState) (n : Nat),
    st client = some ⟨n, R⟩ → (∀ c ∈ calls, ¬R < c.1) →
    (checkSeq cfg client calls st).1 =
      (List.range calls.length).map (fun i => expectedResult cfg R (n + i + 1)) ∧
    (checkSeq cfg client calls st).2 client = some ⟨n + calls.length, R⟩ := by
  intro calls
  induction calls with
  | nil =>
    intro st n hlook hwin
    exact ⟨by simp [checkSeq], by simpa [checkSeq] using hlook⟩
  | cons c rest ih =>
    intro st n hlook hwin
    obtain ⟨now, dc⟩ := c
    have hone := check_in_window cfg dc now client st ⟨n, R⟩ hlook
      (by simpa using hwin (now, dc) (by simp))
    have hrec := ih (check cfg dc now client st).2 (n + 1) hone.2
      (fun c2 hc2 => hwin c2 (by simp [hc2]))
    refine ⟨?_, ?_⟩
    · show (check cfg dc now client st).1 :: _ = _
      rw [hone.1, hrec.1]
      rw [List.length_cons, List.range_succ_eq_map]
      simp only [List.map_cons, List.map_map]
      congr 1
      apply List.map_congr_left
      intro i _
      simp [Function.comp]
      congr 1
      omega
    · show (checkSeq cfg client rest (check cfg dc now client st).2).2 client = _
      rw [hrec.2]
      congr 2
      simp [List.length_cons]
      omega

/-- A fresh or expired entry restarts the counter at 1. -/
theorem check_fresh_or_expired (cfg : RLConfig) (dc : Bool) (now : Nat) (client : Str)
    (st : RLState)
    (h : st client = none ∨ ∃ e, st client = some e ∧ e.resetTime < now) :
    (check cfg dc now client st).1 = ⟨true, (cfg.maxRequests : Int) - 1, now + cfg.windowMs⟩ ∧
    (check cfg dc now client st).2 client = some ⟨1, now + cfg.windowMs⟩ := by
  rcases h with hnone | ⟨e, hsome, hexp⟩
  · have hst1 : (if dc = true then cleanup now st else st) client = none := by
      cases dc with
      | false => simpa using hnone
      | true => simp [cleanup, hnone]
    constructor
    · simp [check, hst1]
    · simp [check, hst1, setClient]
  · cases dc with
    | false =>
      constructor
      · simp [check, hsome, hexp]
      · simp [check, hsome, hexp, setClient]
    | true =>
      have hst1 : cleanup now st client = none := by
        simp [cleanup, hsome, hexp]
      constructor
      · simp [check, hst1]
      · simp [check, hst1, setClient]

/-- The `Math.random()` coin only decides whether `cleanup` runs; it never
changes the result of the call nor the caller's own entry. -/
theorem check_coin_irrelevant (cfg : RLConfig) (dc dc2 : Bool) (now : Nat)
    (id : Str) (st : RLState) :
    (check cfg dc now id st).1 = (check cfg dc2 now id st).1 ∧
    (check cfg dc now id st).2 id = (check cfg dc2 now id st).2 id := by
  rcases h : st id with _ | e
  · have a := check_fresh_or_expired cfg dc now id st (Or.inl h)
    have b := check_fresh_or_expired cfg dc2 now id st (Or.inl h)
    exact ⟨a.1.trans b.1.symm, a.2.trans b.2.symm⟩
  · by_cases hexp : e.resetTime < now
    · have a := check_fresh_or_expired cfg dc now id st (Or.inr ⟨e, h, hexp⟩)
      have b := check_fresh_or_expired cfg dc2 now id st (Or.inr ⟨e, h, hexp⟩)
      exact ⟨a.1.trans b.1.symm, a.2.trans b.2.symm⟩
    · have a := check_in_window cfg dc now id st e h hexp
      have b := check_in_window cfg dc2 now id st e h hexp
      exact ⟨a.1.trans b.1.symm, a.2.trans b.2.symm⟩

/-- A whole window: a first call on a fresh (or expired) entry followed by
in-window calls; closed form of all results and of the final counter. -/
theorem checkSeq_window (cfg : RLConfig) (client : Str) (st : RLState)
    (now1 : Nat) (dc1 : Bool) (rest : List (Nat × Bool))
    (hfresh : st client = none ∨ ∃ e, st client = some e ∧ e.resetTime < now1)
    (hwin : ∀ c ∈ rest, ¬ (now1 + cfg.windowMs) < c.1) :
    (checkSeq cfg client ((now1, dc1) :: rest) st).1 =
      ⟨true, (cfg.maxRequests : Int) - 1, now1 + cfg.windowMs⟩ ::
        (List.range rest.length).map
          (fun i => expectedResult cfg (now1 + cfg.windowMs) (i + 2)) ∧
    (checkSeq cfg client ((now1, dc1) :: rest) st).2 client =
      some ⟨rest.length + 1, now1 + cfg.windowMs⟩ := by
  have h1 := check_fresh_or_expired cfg dc1 now1 client st hfresh
  have h2 := checkSeq_in_window cfg client (now1 + cfg.windowMs) rest
    (check cfg dc1 now1 client st).2 1 h1.2 hwin
  constructor
  · show (check cfg dc1 now1 client st).1 :: _ = _
    rw [h1.1, h2.1]
    congr 1
    apply List.map_congr_left
    intro i _
    congr 1
    omega
  · show (checkSeq cfg client rest (check cfg dc1 now1 client st).2).2 client = _
    rw [h2.2, Nat.add_comm 1 rest.length]

/-- The empty `clients` map. -/
def rlNone : RLState := fun _ => none

/-- C10 (amended): provided maxRequests is at least 1, for every client and
every window of windowMs milliseconds starting at that client's first
check, the rate limiter returns allowed=true for at most maxRequests
calls: the n-th call of the window is allowed exactly when n is at most
maxRequests, every denied call reports remaining = 0, and once the
window's resetTime has passed the counter restarts at 1.  The
opportunistic cleanup only removes entries whose window has already
expired, and the cleanup coin never changes the result of a check.
(With maxRequests = 0 the fresh-entry branch still allows the first call,
so the bound fails there; see the counterexample.) -/
theorem c10_rate_limiter (cfg : RLConfig) (client : Str) (st : RLState)
    (now1 : Nat) (dc1 : Bool) (rest : List (Nat × Bool))
    (hmax : 1 ≤ cfg.maxRequests)
    (hfresh : st client = none ∨ ∃ e, st client = some e ∧ e.resetTime < now1)
    (hwin : ∀ c ∈ rest, ¬ (now1 + cfg.windowMs) < c.1) :
    (checkSeq cfg client ((now1, dc1) :: rest) st).1 =
      (List.range (rest.length + 1)).map
        (fun i => expectedResult cfg (now1 + cfg.windowMs) (i + 1)) ∧
    (∀ R n, ((expectedResult cfg R n).allowed = true ↔ n ≤ cfg.maxRequests) ∧
      ((expectedResult cfg R n).allowed = false →
        (expectedResult cfg R n).remaining = 0)) ∧
    (∀ dc2 now2, now1 + cfg.windowMs < now2 →
      (check cfg dc2 now2 client (checkSeq cfg client ((now1, dc1) :: rest) st).2).1 =
        ⟨true, (cfg.maxRequests : Int) - 1, now2 + cfg.windowMs⟩ ∧
      (check cfg dc2 now2 client (checkSeq cfg client ((now1, dc1) :: rest) st).2).2 client =
        some ⟨1, now2 + cfg.windowMs⟩) ∧
    (∀ now2 st2 id e, cleanup now2 st2 id = some e →
      st2 id = some e ∧ ¬ e.resetTime < now2) ∧
    (∀ now2 st2 id, cleanup now2 st2 id = none →
      st2 id = none ∨ ∃ e, st2 id = some e ∧ e.resetTime < now2) ∧
    (∀ dc2 dc3 now2 id2 st2,
      (check cfg dc2 now2 id2 st2).1 = (check cfg dc3 now2 id2 st2).1) := by
  obtain ⟨hres, hstate⟩ := checkSeq_window cfg client st now1 dc1 rest hfresh hwin
  refine ⟨?_, ?_, ?_, ?_, ?_, ?_⟩
  · rw [hres, List.range_succ_eq_map, List.map_cons, List.map_map]
    congr 1
    simp [expectedResult, hmax]
  · intro R n
    constructor
    · by_cases hn : n ≤ cfg.maxRequests <;> simp [expectedResult, hn]
    · by_cases hn : n ≤ cfg.maxRequests <;> simp [expectedResult, hn]
  · intro dc2 now2 hlt
    exact check_fresh_or_expired cfg dc2 now2 client _
      (Or.inr ⟨⟨rest.length + 1, now1 + cfg.windowMs⟩, hstate, hlt⟩)
  · intro now2 st2 id e h
    simp only [cleanup] at h
    cases hst : st2 id with
    | none => simp [hst] at h
    | some e2 =>
      simp only [hst] at h
      by_cases hexp : e2.resetTime < now2
      · simp [hexp] at h
      · simp [hexp] at h
        refine ⟨?_, ?_⟩
        · rw [h]
        · rw [← h]
          exact hexp
  · intro now2 st2 id h
    simp only [cleanup] at h
    cases hst : st2 id with
    | none => exact Or.inl rfl
    | some e2 =>
      simp only [hst] at h
      by_cases hexp : e2.resetTime < now2
      · exact Or.inr ⟨e2, rfl, hexp⟩
      · simp [hexp] at h
  · intro dc2 dc3 now2 id2 st2
    exact (check_coin_irrelevant cfg dc2 dc3 now2 id2 st2).1

/-- C10 counterexample: with maxRequests = 0 the fresh-entry branch still
allows the first call of the window, so allowed=true is returned for more
than maxRequests calls. -/
theorem c10_counterexample :
    (check ⟨10, 0⟩ false 0 [Char.ofNat 99] rlNone).1.allowed = true := rfl

/-- Witness for C10 at a concrete limiter: three calls in one 10ms window
with maxRequests = 2 produce the expected result list. -/
theorem c10_rate_limiter_witness :
    (checkSeq ⟨10, 2⟩ [Char.ofNat 99] [(5, false), (7, false), (9, true)] rlNone).1 =
      (List.range 3).map (fun i => expectedResult ⟨10, 2⟩ 15 (i + 1)) :=
  (c10_rate_limiter ⟨10, 2⟩ [Char.ofNat 99] rlNone 5 false [(7, false), (9, true)]
    (by decide) (Or.inl rfl) (by decide)).1

end JobPortal
